import Mathlib

/-
Verification development for the pecs promise engine
(crates/pecs_core/src/lib.rs).

The library stores one-shot closures `FnOnce(&mut World, ...)` inside the
world itself, so a direct shallow embedding of the closures as Lean
functions is impossible (negative occurrence).  Instead every closure that
the source can ever store is defunctionalized: the inductive types `Clos`
(register / discard callbacks), `RClos` (resolve callbacks) and the
continuation bodies `Fn0`, `Fn2`, `PFn` each have one constructor per
closure expression of the source, and the fuel indexed interpreter `exec`
gives them their meaning, case by case, following the source line by line.
Machine integers (the thread local id counter, vector indices) are
modelled as `Nat`.  A Rust panic (the `unwrap` in `promise_resolve`, the
`MutPtr` null checks) is the interpreter result `Res.panicked`.
-/

set_option maxHeartbeats 1000000

namespace Pecs

/-- Promise identity: owning thread token plus thread local counter
(lib.rs 118-122).  Equality is structural, as derived. -/
structure PromiseId where
  thread : Nat
  localN : Nat
deriving DecidableEq, Repr

/-- The number of values of the usize counter behind PROMISE_LOCAL_ID
(64 bit target). -/
def usizeSize : Nat := 2 ^ 64

/-- PromiseId::new (lib.rs 124-133): bump the calling thread's
PROMISE_LOCAL_ID counter and pair it with the thread token.  The counter
is a usize and the increment (lib.rs 127) wraps modulo 2^64 in release
builds.  The counter family is a total map from thread token to current
counter value. -/
def pidNew (t : Nat) (c : Nat → Nat) : PromiseId × (Nat → Nat) :=
  (⟨t, (c t + 1) % usizeSize⟩,
    fun u => if u = t then (c t + 1) % usizeSize else c u)

/-- A sequence of PromiseId::new calls; each list entry names the thread
making that call.  Returns the ids in call order. -/
def genIds : List Nat → (Nat → Nat) → List PromiseId
  | [], _ => []
  | t :: ts, c => (pidNew t c).1 :: genIds ts (pidNew t c).2

/-- Codes for the Rust types that key the type partitioned registries
(`PromiseRegistry<S, R>` is a distinct resource per (S, R) pair). -/
inductive Ty where
  | unitT
  | natT
  | idT
  | prodT (a b : Ty)
  | listT (a : Ty)
  | ptrT (a : Ty)
deriving DecidableEq, Repr

/-- A registry partition key: the pair of type codes for (S, R). -/
abbrev TyTag := Ty × Ty

/-- Untyped value universe for the states and results threaded through the
engine. -/
inductive Val where
  | unit
  | nat (n : Nat)
  | pid (p : PromiseId)
  | pair (a b : Val)
  | idList (l : List PromiseId)
  | vlist (l : List Val)

/-- Pure one shot functions passed to map / with / map_result /
with_result.  `tagAnyF` is the closure of lib.rs 623, `tagAllF` the one of
lib.rs 664 (the `MutPtr` is the heap address `ptr`); `constF` covers
`with` and `with_result` (lib.rs 386-388, 415-417). -/
inductive PFn where
  | constF (v : Val)
  | tagAnyF (anyId : PromiseId) (idx : Nat) (ids : List PromiseId)
  | tagAllF (anyId : PromiseId) (idx : Nat) (ptr : Nat)

/-- Evaluation of the pure map functions; Rust tuples become nested
pairs. -/
def PFn.eval : PFn → Val → Val
  | .constF v, _ => v
  | .tagAnyF a i l, s => .pair s (.pair (.pid a) (.pair (.nat i) (.idList l)))
  | .tagAllF a i p, s => .pair s (.pair (.pid a) (.pair (.nat i) (.nat p)))

/-- The (S, PromiseId, usize, Vec of PromiseId) state produced by the map
step of `any` (lib.rs 623). -/
def anyMapTy (tag : TyTag) : Ty :=
  .prodT tag.1 (.prodT .idT (.prodT .natT (.listT .idT)))

/-- The (S, PromiseId, usize, MutPtr) state produced by the map step of
`all` (lib.rs 664). -/
def allMapTy (tag : TyTag) : Ty :=
  .prodT tag.1 (.prodT .idT (.prodT .natT (.ptrT (.listT (.prodT tag.1 tag.2)))))

/-- Partition of the mapped siblings inside `any`. -/
def anyMapTag (tag : TyTag) : TyTag := (anyMapTy tag, tag.2)

/-- Partition of the mapped siblings inside `all`. -/
def allMapTag (tag : TyTag) : TyTag := (allMapTy tag, tag.2)

/-- Partition of `Promise<(), ()>`. -/
def unitTag : TyTag := (.unitT, .unitT)

/-- Partition of the parent promise of `any`: `Promise<(), (S, R)>`. -/
def anyParTag (tag : TyTag) : TyTag := (.unitT, .prodT tag.1 tag.2)

/-- Partition of the parent promise of `all`:
`Promise<(), Vec<(S, R)>>`. -/
def allParTag (tag : TyTag) : TyTag := (.unitT, .listT (.prodT tag.1 tag.2))

mutual
/-- Defunctionalized `FnOnce(&mut World, PromiseId)` closures (register and
discard callbacks).  `marker` and `noop` stand for user supplied callbacks
that do not touch the registries (`marker` records its invocation);
`resolveWith` is a user callback that synchronously resolves the identity
it is handed, as the timer example of lib.rs 260-299 does through commands.
The remaining constructors are the closures the library itself builds:
  `newReg`            lib.rs 230-251 (Promise::new register step)
  `thenReg`           lib.rs 374-376 (downstream register drives upstream;
                       identical shape in map / map_result, lib.rs 403-405,
                       432-434)
  `thenDiscardDown`   lib.rs 345-347 (upstream discard cancels downstream;
                       same shape lib.rs 394-396, 423-425)
  `runSaved`          lib.rs 377-381 (downstream discard runs the saved
                       original upstream discard at the upstream id; same
                       shape lib.rs 406-410, 435-439)
  `anyOuterReg`       lib.rs 617-640, `anyOuterDiscard` lib.rs 641-645
  `anyInner`          lib.rs 626-633 (discard the other siblings, then
                       resolve the parent)
  `allOuterReg`       lib.rs 656-680, `allOuterDiscard` lib.rs 681-685
  `allInner`          lib.rs 667-673 (fill the slot, resolve the parent
                       once every slot is filled). -/
inductive Clos where
  | marker (k : Nat)
  | noop
  | resolveWith (tag : TyTag) (s r : Val)
  | newReg (tag : TyTag) (f : Fn0)
  | thenReg (tagUp : TyTag) (p : Prom)
  | thenDiscardDown (tagDown : TyTag) (downId : PromiseId)
  | runSaved (saved : Option Clos) (selfId : PromiseId)
  | anyOuterReg (tag : TyTag) (sibs : List Prom) (ids : List PromiseId)
  | anyOuterDiscard (tag : TyTag) (ids : List PromiseId)
  | anyInner (tag : TyTag) (ids : List PromiseId) (idx : Nat) (anyId : PromiseId)
      (state r : Val)
  | allOuterReg (tag : TyTag) (sibs : List Prom) (size : Nat)
  | allOuterDiscard (tag : TyTag) (ids : List PromiseId)
  | allInner (tag : TyTag) (ptr : Nat) (idx : Nat) (anyId : PromiseId) (s r : Val)

/-- Defunctionalized `FnOnce(&mut World, S, R)` closures (resolve
callbacks).  `rmarker` is a user installed terminal continuation that only
records its arguments; `redirect` is the closure installed on an awaited
promise (lib.rs 247 and 365-367): resolve the stored downstream identity
with the incoming pair.  `thenCont` is the upstream resolve installed by
`then` (lib.rs 348-371), `mapS` by `map` (lib.rs 426-429) and `mapR` by
`map_result` (lib.rs 397-400). -/
inductive RClos where
  | rmarker (k : Nat)
  | redirect (tag : TyTag) (target : PromiseId)
  | thenCont (tagDown : TyTag) (downId : PromiseId) (f : Fn2)
  | mapS (tagDown : TyTag) (downId : PromiseId) (f : PFn)
  | mapR (tagDown : TyTag) (downId : PromiseId) (f : PFn)

/-- Bodies for Promise::new / Promise::start (lib.rs 201-253): the user
system returns a PromiseResult, either an immediate Resolve or a promise
to await. -/
inductive Fn0 where
  | pres (s r : Val)
  | pawait (p : Prom)

/-- Bodies for the `then` continuation (lib.rs 340).  `toRes` / `toAwait`
are constant user bodies, `recRes` is a user body that records its input
pair and resolves with it unchanged, `anyCont` is the asyn! body of
lib.rs 623-636 and `allCont` the one of lib.rs 664-676. -/
inductive Fn2 where
  | toRes (s r : Val)
  | toAwait (p : Prom)
  | recRes (k : Nat)
  | anyCont (tag : TyTag)
  | allCont (tag : TyTag)

/-- A promise node (lib.rs 178-183): identity plus the three optional one
shot callbacks. -/
inductive Prom where
  | mk (id : PromiseId) (reg : Option Clos) (dis : Option Clos) (res : Option RClos)
end

/-- Identity of a node. -/
def Prom.id : Prom → PromiseId
  | .mk i _ _ _ => i

/-- Register callback of a node. -/
def Prom.regCb : Prom → Option Clos
  | .mk _ r _ _ => r

/-- Discard callback of a node. -/
def Prom.disCb : Prom → Option Clos
  | .mk _ _ d _ => d

/-- Resolve callback of a node. -/
def Prom.resCb : Prom → Option RClos
  | .mk _ _ _ r => r

/-- What a registry stores under an identity: the node minus the key (the
stored Promise value of lib.rs 166; its id field is never read again, the
key carries it). -/
structure Node where
  reg : Option Clos
  dis : Option Clos
  res : Option RClos

/-- One registry partition: `HashMap<PromiseId, Promise<S, R>>`
(lib.rs 166) as an association list kept canonical (insert removes the
old binding). -/
abbrev Reg := List (PromiseId × Node)

/-- HashMap lookup. -/
def Reg.lookup (id : PromiseId) : Reg → Option Node
  | [] => none
  | (k, nd) :: rest => if k = id then some nd else Reg.lookup id rest

/-- HashMap remove. -/
def Reg.removeN (id : PromiseId) : Reg → Reg
  | [] => []
  | (k, nd) :: rest =>
    if k = id then Reg.removeN id rest else (k, nd) :: Reg.removeN id rest

/-- HashMap insert: replaces any existing binding of the key. -/
def Reg.insertN (id : PromiseId) (nd : Node) (r : Reg) : Reg :=
  (id, nd) :: Reg.removeN id r

/-- Events observable from the outside: invocations of user supplied
(marker) callbacks, with their arguments. -/
inductive Ev where
  | cb (k : Nat) (id : PromiseId)
  | rcb (k : Nat) (s r : Val)

/-- Diagnostics: the error! of promise_discard on an absent identity
(lib.rs 80-85) and the misconfigured-resolve error of lib.rs 238-245 and
356-363. -/
inductive LogMsg where
  | discardMissing (tag : TyTag) (id : PromiseId)
  | misconfigured (tag : TyTag) (id : PromiseId)

/-- The bevy World, restricted to what the promise engine touches: the
type partitioned registries, the leaked boxes behind `MutPtr`
(lib.rs 563-600) as a heap of slot arrays (an entry holding `none` was
consumed by `MutPtr::get`), the current thread's id counter, and the
diagnostic log / user event trace. -/
structure World where
  regs : List (TyTag × Reg)
  heap : List (Nat × Option (List (Option (Val × Val))))
  heapNext : Nat
  nextLocal : Nat
  log : List LogMsg
  trace : List Ev

/-- Remove a partition binding from the partition list. -/
def remTag (tag : TyTag) : List (TyTag × Reg) → List (TyTag × Reg)
  | [] => []
  | (t, r) :: rest =>
    if t = tag then remTag tag rest else (t, r) :: remTag tag rest

/-- Find a partition binding. -/
def getTag (tag : TyTag) : List (TyTag × Reg) → Option Reg
  | [] => none
  | (t, r) :: rest => if t = tag then some r else getTag tag rest

/-- Registry partition for a type pair; absent partitions read as empty
(`get_resource_or_insert_with(default)`). -/
def World.getReg (w : World) (tag : TyTag) : Reg :=
  (getTag tag w.regs).getD []

/-- Replace a registry partition. -/
def World.setReg (w : World) (tag : TyTag) (r : Reg) : World :=
  { w with regs := (tag, r) :: remTag tag w.regs }

/-- Stored node for an identity, in one partition. -/
def lookupW (tag : TyTag) (id : PromiseId) (w : World) : Option Node :=
  Reg.lookup id (w.getReg tag)

/-- Heap cells minus one address. -/
def remPtr (p : Nat) :
    List (Nat × Option (List (Option (Val × Val)))) →
      List (Nat × Option (List (Option (Val × Val))))
  | [] => []
  | (q, c) :: rest => if q = p then remPtr p rest else (q, c) :: remPtr p rest

/-- Find a heap cell. -/
def getPtr (p : Nat) :
    List (Nat × Option (List (Option (Val × Val)))) →
      Option (Option (List (Option (Val × Val))))
  | [] => none
  | (q, c) :: rest => if q = p then some c else getPtr p rest

/-- Read a live MutPtr cell (`none` when the address is unknown or the box
was already consumed). -/
def heapGet (w : World) (p : Nat) : Option (List (Option (Val × Val))) :=
  match getPtr p w.heap with
  | some (some slots) => some slots
  | _ => none

/-- Overwrite a MutPtr cell through get_mut. -/
def heapSet (w : World) (p : Nat) (slots : List (Option (Val × Val))) : World :=
  { w with heap := (p, some slots) :: remPtr p w.heap }

/-- MutPtr::get: the box is consumed. -/
def heapFree (w : World) (p : Nat) : World :=
  { w with heap := (p, none) :: remPtr p w.heap }

/-- Fresh identity generated while continuations run (the execution thread
is modelled with thread token 0). -/
def freshPid (w : World) : PromiseId × World :=
  (⟨0, w.nextLocal + 1⟩, { w with nextLocal := w.nextLocal + 1 })

/-- PromiseResult (lib.rs 154-157). -/
inductive PRes where
  | res (s r : Val)
  | await (p : Prom)

/-- Run a `then` continuation body (the user system of lib.rs 349-352):
returns its PromiseResult and the world (fresh ids, recorded events).
`none` models an impossible dynamic type error: in Rust the tuple
destructuring of anyCont / allCont is statically typed. -/
def evalFn2 : Fn2 → Val → Val → World → Option (PRes × World)
  | .toRes s r, _, _, w => some (.res s r, w)
  | .toAwait p, _, _, w => some (.await p, w)
  | .recRes k, s, r, w => some (.res s r, { w with trace := .rcb k s r :: w.trace })
  | .anyCont tag, s, r, w =>
    match s with
    | .pair state (.pair (.pid anyId) (.pair (.nat idx) (.idList ids))) =>
      let f := freshPid w
      some (.await (.mk f.1 (some (.anyInner tag ids idx anyId state r)) (some .noop) none), f.2)
    | _ => none
  | .allCont tag, s, r, w =>
    match s with
    | .pair sv (.pair (.pid anyId) (.pair (.nat idx) (.nat ptr))) =>
      let f := freshPid w
      some (.await (.mk f.1 (some (.allInner tag ptr idx anyId sv r)) (some .noop) none), f.2)
    | _ => none

/-- Run a Promise::new body. -/
def evalFn0 : Fn0 → World → Option (PRes × World)
  | .pres s r, w => some (.res s r, w)
  | .pawait p, w => some (.await p, w)

/-- The ids a firing `any` sibling discards: every sibling id except its
own index (the `for (i, id) ... if i != idx` loop of lib.rs 627-631). -/
def othersOf (ids : List PromiseId) (idx : Nat) : List PromiseId :=
  (ids.enum.filterMap (fun e => if e.1 = idx then none else some e.2))

/-- Interpreter operations: the three lifecycle free functions, closure
invocation, and the defunctionalized loops of the combinators
(`disList` for the discard loops of lib.rs 627-631 / 642-644 / 682-684,
`anyLoop` for lib.rs 619-639, `allLoop` for lib.rs 660-679). -/
inductive Op where
  | reg (tag : TyTag) (p : Prom)
  | res (tag : TyTag) (id : PromiseId) (s r : Val)
  | dis (tag : TyTag) (id : PromiseId)
  | runC (c : Clos) (id : PromiseId)
  | runR (c : RClos) (s r : Val)
  | disList (tag : TyTag) (ids : List PromiseId)
  | anyLoop (tag : TyTag) (sibs : List Prom) (ids : List PromiseId)
      (anyId : PromiseId) (idx : Nat)
  | allLoop (tag : TyTag) (sibs : List Prom) (anyId : PromiseId)
      (ptr : Nat) (idx : Nat)

/-- Interpreter outcome: a new world, a Rust panic, or exhausted fuel. -/
inductive Res where
  | ok (w : World)
  | panicked
  | outOfFuel

/-- Sequencing of interpreter outcomes. -/
def Res.bind : Res → (World → Res) → Res
  | .ok w, f => f w
  | .panicked, _ => .panicked
  | .outOfFuel, _ => .outOfFuel

/-- Promise::then (lib.rs 333-384) as a state passing constructor: spends
one fresh id, rewires the upstream's resolve and discard, and returns the
downstream node.  Note the upstream's previous resolve callback is
overwritten and its previous discard is saved into the downstream's
discard, run at the upstream id. -/
def thenOp (tagDown : TyTag) (tagUp : TyTag) (p : Prom) (f : Fn2) (w : World) :
    Prom × World :=
  match p with
  | .mk pid prcb pdcb _ =>
    let fr := freshPid w
    let upstream : Prom :=
      .mk pid prcb (some (.thenDiscardDown tagDown fr.1))
        (some (.thenCont tagDown fr.1 f))
    (.mk fr.1 (some (.thenReg tagUp upstream)) (some (.runSaved pdcb pid)) none, fr.2)

/-- Promise::map (lib.rs 419-442); with (lib.rs 415-417) is map of a
constant function. -/
def mapOp (tagDown : TyTag) (tagUp : TyTag) (p : Prom) (f : PFn) (w : World) :
    Prom × World :=
  match p with
  | .mk pid prcb pdcb _ =>
    let fr := freshPid w
    let upstream : Prom :=
      .mk pid prcb (some (.thenDiscardDown tagDown fr.1))
        (some (.mapS tagDown fr.1 f))
    (.mk fr.1 (some (.thenReg tagUp upstream)) (some (.runSaved pdcb pid)) none, fr.2)

/-- Promise::map_result (lib.rs 390-413); with_result (lib.rs 386-388) is
map_result of a constant function. -/
def mapResultOp (tagDown : TyTag) (tagUp : TyTag) (p : Prom) (f : PFn) (w : World) :
    Prom × World :=
  match p with
  | .mk pid prcb pdcb _ =>
    let fr := freshPid w
    let upstream : Prom :=
      .mk pid prcb (some (.thenDiscardDown tagDown fr.1))
        (some (.mapR tagDown fr.1 f))
    (.mk fr.1 (some (.thenReg tagUp upstream)) (some (.runSaved pdcb pid)) none, fr.2)

/-- Promise::new / Promise::start (lib.rs 201-253): a root node whose
register step runs the user body. -/
def newOp (tag : TyTag) (f : Fn0) (w : World) : Prom × World :=
  let fr := freshPid w
  (.mk fr.1 (some (.newReg tag f)) none none, fr.2)

/-- Promise::register, the escape hatch (lib.rs 321-331): raw user
register / discard callbacks, no resolve callback. -/
def registerOp (onInvoke : Clos) (onDiscard : Clos) (w : World) : Prom × World :=
  let fr := freshPid w
  (.mk fr.1 (some onInvoke) (some onDiscard) none, fr.2)

/-- AnyPromises::register for Vec (lib.rs 611-648). -/
def anyOp (tag : TyTag) (sibs : List Prom) (w : World) : Prom × World :=
  let ids := sibs.map Prom.id
  let fr := freshPid w
  (.mk fr.1 (some (.anyOuterReg tag sibs ids)) (some (.anyOuterDiscard tag ids)) none,
    fr.2)

/-- AllPromises::register for Vec (lib.rs 650-688). -/
def allOp (tag : TyTag) (sibs : List Prom) (w : World) : Prom × World :=
  let ids := sibs.map Prom.id
  let fr := freshPid w
  (.mk fr.1 (some (.allOuterReg tag sibs ids.length)) (some (.allOuterDiscard tag ids))
    none, fr.2)

/-- The interpreter.  Each case is the direct transcription of the named
source lines; recursion (a callback calling back into the lifecycle
functions) spends fuel. -/
def exec : Nat → Op → World → Res
  | 0, _, _ => .outOfFuel
  | fuel + 1, op, w =>
    match op with
  -- promise_resolve (lib.rs 21-46): get_mut(&id).unwrap() panics when the
  -- identity is absent; otherwise mem::take the resolve callback, invoke
  -- it, then remove the identity.
    | .res tag id s r =>
      let reg := w.getReg tag
      match Reg.lookup id reg with
      | none => .panicked
      | some nd =>
        let w1 := w.setReg tag (Reg.insertN id { nd with res := none } reg)
        let after : Res :=
          match nd.res with
          | some rc => exec fuel (.runR rc s r) w1
          | none => .ok w1
        after.bind fun w2 =>
          .ok (w2.setReg tag (Reg.removeN id (w2.getReg tag)))
  -- promise_register (lib.rs 49-68): strip the register callback, insert
  -- the node, then invoke the callback with the id.
    | .reg tag p =>
      match p with
      | .mk id rcb dcb rescb =>
        let w1 := w.setReg tag (Reg.insertN id ⟨none, dcb, rescb⟩ (w.getReg tag))
        match rcb with
        | some c => exec fuel (.runC c id) w1
        | none => .ok w1
  -- promise_discard (lib.rs 70-98): when present, mem::take the discard
  -- callback and invoke it; when absent, log; in both cases remove the
  -- identity afterwards.
    | .dis tag id =>
      let reg := w.getReg tag
      match Reg.lookup id reg with
      | some nd =>
        let w1 := w.setReg tag (Reg.insertN id { nd with dis := none } reg)
        let after : Res :=
          match nd.dis with
          | some c => exec fuel (.runC c id) w1
          | none => .ok w1
        after.bind fun w2 =>
          .ok (w2.setReg tag (Reg.removeN id (w2.getReg tag)))
      | none =>
        let w1 := { w with log := .discardMissing tag id :: w.log }
        .ok (w1.setReg tag (Reg.removeN id (w1.getReg tag)))
    | .runC c id =>
      match c with
      | .marker k => .ok { w with trace := .cb k id :: w.trace }
      | .noop => .ok w
      | .resolveWith tag s r => exec fuel (.res tag id s r) w
      -- Promise::new register closure (lib.rs 230-251).
      | .newReg tag f =>
        match evalFn0 f w with
        | none => .panicked
        | some (pr, w1) =>
          match pr with
          | .res s r => exec fuel (.res tag id s r) w1
          | .await p =>
            match p with
            | .mk pid prcb pdcb presolve =>
              if presolve.isSome then
                .ok { w1 with log := .misconfigured tag pid :: w1.log }
              else
                exec fuel (.reg tag (.mk pid prcb pdcb (some (.redirect tag id)))) w1
      | .thenReg tagUp p => exec fuel (.reg tagUp p) w
      | .thenDiscardDown tagDown downId => exec fuel (.dis tagDown downId) w
      | .runSaved saved selfId =>
        match saved with
        | some c => exec fuel (.runC c selfId) w
        | none => .ok w
      | .anyOuterReg tag sibs ids => exec fuel (.anyLoop tag sibs ids id 0) w
      | .anyOuterDiscard tag ids => exec fuel (.disList tag ids) w
      -- lib.rs 626-633.
      | .anyInner tag ids idx anyId state r =>
        (exec fuel (.disList tag (othersOf ids idx)) w).bind fun w1 =>
          exec fuel (.res (anyParTag tag) anyId .unit (.pair state r)) w1
      -- lib.rs 656-659: allocate the shared slot array, then the loop.
      | .allOuterReg tag sibs size =>
        let ptr := w.heapNext
        let w1 := { w with
          heap := (ptr, some (List.replicate size none)) :: w.heap
          heapNext := ptr + 1 }
        exec fuel (.allLoop tag sibs id ptr 0) w1
      | .allOuterDiscard tag ids => exec fuel (.disList tag ids) w
      -- lib.rs 667-673: get_mut panics when the cell was consumed.
      | .allInner tag ptr idx anyId s r =>
        match heapGet w ptr with
        | none => .panicked
        | some slots =>
          let slots1 := slots.set idx (some (s, r))
          let w1 := heapSet w ptr slots1
          if slots1.all Option.isSome then
            let w2 := heapFree w1 ptr
            exec fuel
              (.res (allParTag tag) anyId .unit
                (.vlist (slots1.filterMap (fun o => o.map fun e => Val.pair e.1 e.2))))
              w2
          else
            .ok w1
    | .runR c s r =>
      match c with
      | .rmarker k => .ok { w with trace := .rcb k s r :: w.trace }
      | .redirect tag target => exec fuel (.res tag target s r) w
      -- the resolve closure installed by then (lib.rs 348-371).
      | .thenCont tagDown downId f =>
        match evalFn2 f s r w with
        | none => .panicked
        | some (pr, w1) =>
          match pr with
          | .res s2 r2 => exec fuel (.res tagDown downId s2 r2) w1
          | .await p =>
            match p with
            | .mk pid prcb pdcb presolve =>
              if presolve.isSome then
                .ok { w1 with log := .misconfigured tagDown pid :: w1.log }
              else
                exec fuel
                  (.reg tagDown (.mk pid prcb pdcb (some (.redirect tagDown downId)))) w1
      | .mapS tagDown downId f => exec fuel (.res tagDown downId (PFn.eval f s) r) w
      | .mapR tagDown downId f => exec fuel (.res tagDown downId s (PFn.eval f r)) w
    | .disList tag ids =>
      match ids with
      | [] => .ok w
      | i :: rest =>
        (exec fuel (.dis tag i) w).bind fun w1 => exec fuel (.disList tag rest) w1
  -- the `for promise in self` loop of AnyPromises::register (lib.rs
  -- 619-639): tag the sibling with map, chain the asyn! continuation with
  -- then, register the chain, continue with the next index.
    | .anyLoop tag sibs ids anyId idx =>
      match sibs with
      | [] => .ok w
      | p :: rest =>
        let m := mapOp (anyMapTag tag) tag p (.tagAnyF anyId idx ids) w
        let t := thenOp unitTag (anyMapTag tag) m.1 (.anyCont tag) m.2
        (exec fuel (.reg unitTag t.1) t.2).bind fun w3 =>
          exec fuel (.anyLoop tag rest ids anyId (idx + 1)) w3
  -- the `for promise in self` loop of AllPromises::register (lib.rs
  -- 660-679).
    | .allLoop tag sibs anyId ptr idx =>
      match sibs with
      | [] => .ok w
      | p :: rest =>
        let m := mapOp (allMapTag tag) tag p (.tagAllF anyId idx ptr) w
        let t := thenOp unitTag (allMapTag tag) m.1 (.allCont tag) m.2
        (exec fuel (.reg unitTag t.1) t.2).bind fun w3 =>
          exec fuel (.allLoop tag rest anyId ptr (idx + 1)) w3

/-- Run a list of top level operations (scheduler steps), each with the
given fuel. -/
def runOps (fuel : Nat) : List Op → World → Res
  | [], w => .ok w
  | op :: rest, w => (exec fuel op w).bind fun w1 => runOps fuel rest w1

/-- The empty world. -/
def w0 : World := ⟨[], [], 0, 0, [], []⟩

/-- Extract the world of a successful run. -/
def Res.okWorld : Res → Option World
  | .ok w => some w
  | _ => none

/-- The (S, R) pair used by the concrete scenarios: S = R = usize. -/
def natNatTag : TyTag := (.natT, .natT)

/-- An externally driven pending sibling (the shape Promise::register
produces, e.g. a timer): thread-1 identity `i + 1`, a user register
callback that records invocation `10 + i`, a user discard cleanup, no
resolve callback yet. -/
def extSib (i : Nat) : Prom :=
  .mk ⟨1, i + 1⟩ (some (.marker (10 + i))) (some .noop) none

/-- Registered-and-pending invariant of the registries: every stored node
has its register callback stripped. -/
def RegInv (w : World) : Prop :=
  ∀ tag id nd, lookupW tag id w = some nd → nd.reg = none

/-- Scenario for the `any` claim: two external siblings combined by
Promise::any, observed by a user continuation chained with then. -/
def c3any : Prom × World := anyOp natNatTag [extSib 0, extSib 1] w0

/-- Observer chained onto the `any` parent. -/
def c3obs : Prom × World :=
  thenOp (anyParTag natNatTag) (anyParTag natNatTag) c3any.1 (.recRes 99) c3any.2

/-- Register the observed `any`, then resolve sibling 0 with (7, 10). -/
def c3run : Res :=
  runOps 30
    [.reg (anyParTag natNatTag) c3obs.1, .res natNatTag ⟨1, 1⟩ (.nat 7) (.nat 10)]
    c3obs.2

/-- The world after registering the downstream node of
`p.then(f)` for a pending escape hatch upstream p: both nodes stored, the
upstream register callback fired. -/
def regThenWorld (tagUp tagDown : TyTag) (q pid : PromiseId) (a b : Nat) (f : Fn2)
    (w' : World) : World :=
  let w1 := w'.setReg tagDown
    (Reg.insertN q ⟨none, some (.runSaved (some (.marker b)) pid), none⟩
      (w'.getReg tagDown))
  let w2 := w1.setReg tagUp
    (Reg.insertN pid
      ⟨none, some (.thenDiscardDown tagDown q), some (.thenCont tagDown q f)⟩
      (w1.getReg tagUp))
  { w2 with trace := .cb a pid :: w2.trace }

/-- A world holding one pending node whose resolve callback is a user
terminal continuation. -/
def wPend : World :=
  w0.setReg natNatTag (Reg.insertN ⟨5, 5⟩ ⟨none, none, some (.rmarker 3)⟩ [])

/-- A world holding one pending node, used to exercise re-registration of
an already used identity. -/
def wOld : World :=
  w0.setReg natNatTag (Reg.insertN ⟨6, 6⟩ ⟨none, some .noop, some (.rmarker 8)⟩ [])

/-- Identity of external sibling i (owned by worker thread 1). -/
def sibId (i : Nat) : PromiseId := ⟨1, i + 1⟩

/-- Identity generated by the map step for sibling i during combinator
registration (2 ids per sibling, after ids 1 = parent and 2 = observer). -/
def mapId (i : Nat) : PromiseId := ⟨0, 2 + 2 * i + 1⟩

/-- Identity generated by the then step for sibling i during combinator
registration. -/
def thenId (i : Nat) : PromiseId := ⟨0, 2 + 2 * i + 2⟩

/-- Identity of the inner Promise::register node created when the q-th
resolution (0 based) of the `all` scenario runs its continuation. -/
def wakeId (n q : Nat) : PromiseId := ⟨0, 2 + 2 * n + q + 1⟩

/-- Stored registry node of a pending `all` sibling after registration:
resolve runs the tagging map into the mapped partition, discard cancels
the mapped downstream. -/
def sibNodeAll (tag : TyTag) (i : Nat) : Node :=
  ⟨none, some (.thenDiscardDown (allMapTag tag) (mapId i)),
    some (.mapS (allMapTag tag) (mapId i) (.tagAllF ⟨0, 1⟩ i 0))⟩

/-- Stored node of the mapped sibling i: resolve runs the allCont
continuation feeding thenId i, discard cancels thenId i. -/
def mapNodeAll (tag : TyTag) (i : Nat) : Node :=
  ⟨none, some (.thenDiscardDown unitTag (thenId i)),
    some (.thenCont unitTag (thenId i) (.allCont tag))⟩

/-- Stored node of the `all` parent (id 1), observed by the continuation
chained at id 2. -/
def parANode (tag : TyTag) : Node :=
  ⟨none, some (.thenDiscardDown (allParTag tag) ⟨0, 2⟩),
    some (.thenCont (allParTag tag) ⟨0, 2⟩ (.recRes 99))⟩

/-- Stored node of the observer (id 2). -/
def obsANode (tag : TyTag) (n : Nat) : Node :=
  ⟨none, some (.runSaved (some (.allOuterDiscard tag ((List.range n).map sibId)))
    ⟨0, 1⟩), none⟩

/-- The shared slot array of `all` after the siblings listed in done have
resolved with (sv i, rv i). -/
def slotsOf (n : Nat) (sv rv : Nat → Val) (done : List Nat) :
    List (Option (Val × Val)) :=
  (List.range n).map (fun i => if i ∈ done then some (sv i, rv i) else none)

/-- Trace after registering the observed `all` over n external siblings:
each sibling's user register callback fired once, in index order. -/
def setupTrace (n : Nat) : List Ev :=
  ((List.range n).map (fun i => Ev.cb (10 + i) (sibId i))).reverse

/-- The n external siblings. -/
def allSibs (n : Nat) : List Prom := (List.range n).map extSib

/-- `all` over the n siblings, built on the fresh world. -/
def c4all (tag : TyTag) (n : Nat) : Prom × World := allOp tag (allSibs n) w0

/-- Observer continuation chained onto the `all` parent. -/
def c4obs (tag : TyTag) (n : Nat) : Prom × World :=
  thenOp (allParTag tag) (allParTag tag) (c4all tag n).1 (.recRes 99) (c4all tag n).2

/-- External resolution of sibling j with (sv j, rv j). -/
def c4resOp (tag : TyTag) (sv rv : Nat → Val) (j : Nat) : Op :=
  .res tag (sibId j) (sv j) (rv j)

/-- Register the observed `all`, then resolve the siblings in the given
completion order. -/
def c4run (tag : TyTag) (n : Nat) (sv rv : Nat → Val) (order : List Nat)
    (fuel : Nat) : Res :=
  runOps fuel
    (.reg (allParTag tag) (c4obs tag n).1 :: order.map (c4resOp tag sv rv))
    (c4obs tag n).2

/-- The node stored under thenId i (never resolved or discarded in the
happy path; holds the saved sibling cleanup chain). -/
def thenNodeAll (i : Nat) : Node :=
  ⟨none, some (.runSaved (some (.runSaved (some .noop) (sibId i))) (mapId i)), none⟩

/-- World after registering the i-th sibling chain of `all` on top of w
(two fresh ids spent by map / then, three nodes stored, the sibling user
register callback fired). -/
def chainWorld (tag : TyTag) (i : Nat) (w : World) : World :=
  let wa : World := { w with nextLocal := w.nextLocal + 2 }
  let w1 := wa.setReg unitTag
    (Reg.insertN (thenId i) (thenNodeAll i) (wa.getReg unitTag))
  let w2 := w1.setReg (allMapTag tag)
    (Reg.insertN (mapId i) (mapNodeAll tag i) (w1.getReg (allMapTag tag)))
  let w3 := w2.setReg tag
    (Reg.insertN (sibId i) (sibNodeAll tag i) (w2.getReg tag))
  { w3 with trace := .cb (10 + i) (sibId i) :: w3.trace }

/-- The world right before the registration loop of the `all` scenario
runs: observer and parent stored, slot array allocated. -/
def c4PreWorld (tag : TyTag) (n : Nat) : World :=
  let ids := ((List.range n).map extSib).map Prom.id
  let wA : World := { w0 with nextLocal := 2 }
  let v1 := wA.setReg (allParTag tag)
    (Reg.insertN ⟨0, 2⟩
      ⟨none, some (.runSaved (some (.allOuterDiscard tag ids)) ⟨0, 1⟩), none⟩
      (wA.getReg (allParTag tag)))
  let v2 := v1.setReg (allParTag tag)
    (Reg.insertN ⟨0, 1⟩ (parANode tag) (v1.getReg (allParTag tag)))
  { v2 with heap := [(0, some (List.replicate ids.length none))], heapNext := 1 }

/-- Loop invariant of the registration phase: the first idx sibling
chains are stored. -/
structure C4Setup (tag : TyTag) (n : Nat) (sv rv : Nat → Val) (idx : Nat)
    (w : World) : Prop where
  sib : ∀ i, i < idx → lookupW tag (sibId i) w = some (sibNodeAll tag i)
  mapped : ∀ i, i < idx →
    lookupW (allMapTag tag) (mapId i) w = some (mapNodeAll tag i)
  parA : lookupW (allParTag tag) ⟨0, 1⟩ w = some (parANode tag)
  obsA : lookupW (allParTag tag) ⟨0, 2⟩ w = some (obsANode tag n)
  heap : heapGet w 0 = some (slotsOf n sv rv [])
  trace : w.trace = setupTrace idx
  next : w.nextLocal = 2 + 2 * idx

/-- World after a non-final external resolution of sibling j in the `all`
scenario: the sibling and mapped entries are consumed, the wake node is
parked in the unit partition, slot j is filled. -/
def c4StepWorld (tag : TyTag) (n : Nat) (sv rv : Nat → Val) (done : List Nat)
    (j : Nat) (w : World) : World :=
  let w1 := w.setReg tag (Reg.insertN (sibId j)
    ⟨none, some (.thenDiscardDown (allMapTag tag) (mapId j)), none⟩ (w.getReg tag))
  let w2 := w1.setReg (allMapTag tag) (Reg.insertN (mapId j)
    ⟨none, some (.thenDiscardDown unitTag (thenId j)), none⟩
    (w1.getReg (allMapTag tag)))
  let w3 : World := { w2 with nextLocal := w2.nextLocal + 1 }
  let w4 := w3.setReg unitTag (Reg.insertN ⟨0, w.nextLocal + 1⟩
    ⟨none, some .noop, some (.redirect unitTag (thenId j))⟩ (w3.getReg unitTag))
  let w5 := heapSet w4 0 (slotsOf n sv rv (done ++ [j]))
  let w6 := w5.setReg (allMapTag tag)
    (Reg.removeN (mapId j) (w5.getReg (allMapTag tag)))
  w6.setReg tag (Reg.removeN (sibId j) (w6.getReg tag))

/-- World after the `all` parent fires through the observer continuation:
parent resolve consumed, one rcb event recorded, observer consumed, both
identities removed from the parent partition. -/
def parentFired (tag : TyTag) (n : Nat) (s r : Val) (u : World) : World :=
  let r1 := Reg.insertN ⟨0, 1⟩
    ⟨none, some (.thenDiscardDown (allParTag tag) ⟨0, 2⟩), none⟩
    (u.getReg (allParTag tag))
  let q1 := u.setReg (allParTag tag) r1
  let q2 : World := { q1 with trace := .rcb 99 s r :: q1.trace }
  let q3 := q2.setReg (allParTag tag) (Reg.insertN ⟨0, 2⟩
    ⟨none, some (.runSaved (some (.allOuterDiscard tag ((List.range n).map sibId)))
      ⟨0, 1⟩), none⟩ r1)
  let q4 := q3.setReg (allParTag tag)
    (Reg.removeN ⟨0, 2⟩ (q3.getReg (allParTag tag)))
  q4.setReg (allParTag tag) (Reg.removeN ⟨0, 1⟩ (q4.getReg (allParTag tag)))

/-- State invariant between external resolutions of the `all` scenario:
done lists the already resolved sibling indices in completion order. -/
structure C4Inv (tag : TyTag) (n : Nat) (sv rv : Nat → Val) (done : List Nat)
    (w : World) : Prop where
  sib : ∀ i, i < n → i ∉ done → lookupW tag (sibId i) w = some (sibNodeAll tag i)
  sibGone : ∀ i, i < n → i ∈ done → lookupW tag (sibId i) w = none
  mapped : ∀ i, i < n → i ∉ done →
    lookupW (allMapTag tag) (mapId i) w = some (mapNodeAll tag i)
  mappedGone : ∀ i, i < n → i ∈ done →
    lookupW (allMapTag tag) (mapId i) w = none
  parA : lookupW (allParTag tag) ⟨0, 1⟩ w = some (parANode tag)
  obsA : lookupW (allParTag tag) ⟨0, 2⟩ w = some (obsANode tag n)
  heap : heapGet w 0 = some (slotsOf n sv rv done)
  trace : w.trace = setupTrace n
  next : w.nextLocal = 2 + 2 * n + done.length

theorem removeN_removeN (id : PromiseId) (r : Reg) :
    Reg.removeN id (Reg.removeN id r) = Reg.removeN id r := by
  induction r with
  | nil => rfl
  | cons hd tl ih =>
    obtain ⟨k, nd⟩ := hd
    by_cases hk : k = id
    · simp [Reg.removeN, hk, ih]
    · simp [Reg.removeN, hk, ih]

theorem lookup_removeN (i id : PromiseId) (r : Reg) :
    Reg.lookup i (Reg.removeN id r) = if i = id then none else Reg.lookup i r := by
  induction r with
  | nil => simp [Reg.removeN, Reg.lookup]
  | cons hd tl ih =>
    obtain ⟨k, nd⟩ := hd
    by_cases hk : k = id
    · subst hk
      by_cases hi : i = k
      · subst hi
        simp only [Reg.removeN, if_pos rfl]
        simpa using ih
      · have hki : ¬(k = i) := fun he => hi he.symm
        simp [Reg.removeN, Reg.lookup, hi, hki, ih]
    · by_cases hki : k = i
      · have hi : ¬(i = id) := fun he => hk (hki.symm ▸ he)
        simp [Reg.removeN, Reg.lookup, hk, hki, hi]
      · simp [Reg.removeN, Reg.lookup, hk, hki, ih]

theorem lookup_insertN_self (id : PromiseId) (nd : Node) (r : Reg) :
    Reg.lookup id (Reg.insertN id nd r) = some nd := by
  simp [Reg.insertN, Reg.lookup]

theorem lookup_insertN_ne (i id : PromiseId) (nd : Node) (r : Reg) (h : i ≠ id) :
    Reg.lookup i (Reg.insertN id nd r) = Reg.lookup i r := by
  have hne : ¬(id = i) := fun he => h he.symm
  simp [Reg.insertN, Reg.lookup, hne, lookup_removeN, h]

theorem lookup_removeN_self (id : PromiseId) (r : Reg) :
    Reg.lookup id (Reg.removeN id r) = none := by
  simp [lookup_removeN]

theorem insertN_removeN (id : PromiseId) (nd : Node) (r : Reg) :
    Reg.insertN id nd (Reg.removeN id r) = Reg.insertN id nd r := by
  simp [Reg.insertN, removeN_removeN]

theorem remTag_remTag (tag : TyTag) (l : List (TyTag × Reg)) :
    remTag tag (remTag tag l) = remTag tag l := by
  induction l with
  | nil => rfl
  | cons hd tl ih =>
    obtain ⟨t, r⟩ := hd
    by_cases ht : t = tag
    · simp [remTag, ht, ih]
    · simp [remTag, ht, ih]

theorem getTag_remTag_ne (t tag : TyTag) (l : List (TyTag × Reg)) (h : t ≠ tag) :
    getTag t (remTag tag l) = getTag t l := by
  induction l with
  | nil => rfl
  | cons hd tl ih =>
    obtain ⟨u, r⟩ := hd
    by_cases hu : u = tag
    · have h1 : ¬(u = t) := fun he => h (he ▸ hu)
      have h2 : ¬(tag = t) := fun he => h he.symm
      simp [remTag, getTag, hu, h1, h2, ih]
    · simp [remTag, getTag, hu, ih]

theorem getReg_setReg_self (w : World) (tag : TyTag) (r : Reg) :
    (w.setReg tag r).getReg tag = r := by
  simp [World.setReg, World.getReg, getTag]

theorem getReg_setReg_ne (w : World) (t tag : TyTag) (r : Reg) (h : t ≠ tag) :
    (w.setReg tag r).getReg t = w.getReg t := by
  have hne : ¬(tag = t) := fun he => h he.symm
  simp [World.setReg, World.getReg, getTag, hne, getTag_remTag_ne t tag _ h]

theorem lookupW_setReg (t tag : TyTag) (i : PromiseId) (r : Reg) (w : World) :
    lookupW t i (w.setReg tag r) =
      if t = tag then Reg.lookup i r else lookupW t i w := by
  by_cases h : t = tag
  · subst h; simp [lookupW, getReg_setReg_self]
  · simp [lookupW, getReg_setReg_ne w t tag r h, h]

theorem setReg_setReg (w : World) (tag : TyTag) (x y : Reg) :
    (w.setReg tag y).setReg tag x = w.setReg tag x := by
  simp [World.setReg, remTag, remTag_remTag]

theorem Res.bind_eq_ok {r : Res} {f : World → Res} {w' : World}
    (h : r.bind f = .ok w') : ∃ w1, r = .ok w1 ∧ f w1 = .ok w' := by
  cases r with
  | ok w1 => exact ⟨w1, rfl, h⟩
  | panicked => simp [Res.bind] at h
  | outOfFuel => simp [Res.bind] at h

/-- C1: the claim (and the spec) say that resolving an identity absent
from its (S, R) registry is a logged, non fatal no-op.  The code of
promise_resolve (lib.rs 33) instead unwraps the failed lookup and panics:
on every world whose (S, R) partition lacks the identity, the resolve
operation aborts. -/
theorem c1_resolve_stale_panics (tag : TyTag) (id : PromiseId) (s r : Val)
    (w : World) (fuel : Nat) (h : lookupW tag id w = none) :
    exec (fuel + 1) (.res tag id s r) w = .panicked := by
  unfold lookupW at h
  simp only [exec]
  rw [h]

theorem c1_resolve_stale_panics_witness :
    lookupW natNatTag ⟨0, 1⟩ w0 = none ∧
      exec 3 (.res natNatTag ⟨0, 1⟩ .unit .unit) w0 = .panicked :=
  ⟨rfl, c1_resolve_stale_panics natNatTag ⟨0, 1⟩ .unit .unit w0 2 rfl⟩

/-- C7: discarding an identity absent from its (S, R) registry is a
logged no-op (lib.rs 75-90): no panic, no callback invocation, every
registry binding unchanged. -/
theorem c7_discard_stale_noop (tag : TyTag) (id : PromiseId) (w : World)
    (fuel : Nat) (h : lookupW tag id w = none) :
    ∃ w', exec (fuel + 1) (.dis tag id) w = .ok w' ∧
      w'.log = .discardMissing tag id :: w.log ∧
      w'.trace = w.trace ∧ w'.heap = w.heap ∧ w'.nextLocal = w.nextLocal ∧
      ∀ t i, lookupW t i w' = lookupW t i w := by
  unfold lookupW at h
  simp only [exec]
  rw [h]
  refine ⟨_, rfl, rfl, rfl, rfl, rfl, ?_⟩
  intro t i
  rw [lookupW_setReg]
  by_cases ht : t = tag
  · rw [if_pos ht]
    have hgr : ({ w with log := LogMsg.discardMissing tag id :: w.log } : World).getReg tag
        = w.getReg tag := rfl
    rw [hgr, lookup_removeN]
    by_cases hi : i = id
    · rw [if_pos hi, ht, hi]
      unfold lookupW
      exact h.symm
    · rw [if_neg hi, ht]
      rfl
  · rw [if_neg ht]
    rfl

theorem c7_discard_stale_noop_witness :
    lookupW natNatTag ⟨0, 1⟩ w0 = none ∧
      ∃ w', exec 3 (.dis natNatTag ⟨0, 1⟩) w0 = .ok w' ∧
        w'.log = .discardMissing natNatTag ⟨0, 1⟩ :: w0.log ∧
        w'.trace = w0.trace ∧ w'.heap = w0.heap ∧ w'.nextLocal = w0.nextLocal ∧
        ∀ t i, lookupW t i w' = lookupW t i w0 :=
  ⟨rfl, c7_discard_stale_noop natNatTag ⟨0, 1⟩ w0 2 rfl⟩

/-- C6: resolving a present identity extracts and clears the stored
resolve callback, invokes it with the given state and result (shown for a
user terminal continuation, which records exactly that pair once), and the
identity is afterwards removed from the registry unconditionally: whatever
the invoked callback did, a successful resolve leaves the identity absent
(lib.rs 21-46). -/
theorem c6_resolve_present_fires_and_removes (tag : TyTag) (id : PromiseId)
    (nd : Node) (s r : Val) (w : World) (fuel : Nat)
    (h : lookupW tag id w = some nd) :
    (∀ k, nd.res = some (.rmarker k) →
      ∃ w', exec (fuel + 2) (.res tag id s r) w = .ok w' ∧
        w'.trace = .rcb k s r :: w.trace ∧
        w'.log = w.log ∧
        lookupW tag id w' = none ∧
        ∀ t i, i ≠ id → lookupW t i w' = lookupW t i w) ∧
    (∀ w', exec (fuel + 1) (.res tag id s r) w = .ok w' →
      lookupW tag id w' = none) := by
  unfold lookupW at h
  constructor
  · intro k hres
    cases nd with
    | mk ndreg nddis ndres =>
      simp only at hres
      subst hres
      simp only [exec]
      rw [h]
      simp only [Res.bind]
      refine ⟨_, rfl, rfl, rfl, ?_, ?_⟩
      · rw [lookupW_setReg, if_pos rfl, lookup_removeN_self]
      · intro t i hi
        rw [lookupW_setReg]
        by_cases ht : t = tag
        · rw [if_pos ht, ht]
          have hgr :
              ({ w.setReg tag
                    (Reg.insertN id ⟨ndreg, nddis, none⟩ (w.getReg tag)) with
                  trace := Ev.rcb k s r ::
                    (w.setReg tag
                      (Reg.insertN id ⟨ndreg, nddis, none⟩ (w.getReg tag))).trace } :
                World).getReg tag
              = Reg.insertN id ⟨ndreg, nddis, none⟩ (w.getReg tag) :=
            getReg_setReg_self w tag _
          rw [hgr, lookup_removeN, if_neg hi, lookup_insertN_ne i id _ _ hi]
          rfl
        · rw [if_neg ht]
          exact (lookupW_setReg t tag i
            (Reg.insertN id ⟨ndreg, nddis, none⟩ (w.getReg tag)) w).trans (if_neg ht)
  · intro w' hex
    simp only [exec] at hex
    rw [h] at hex
    obtain ⟨w2, _, h2⟩ := Res.bind_eq_ok hex
    injection h2 with h3
    rw [← h3, lookupW_setReg, if_pos rfl, lookup_removeN_self]

theorem c6_resolve_present_fires_and_removes_witness :
    lookupW natNatTag ⟨5, 5⟩ wPend = some ⟨none, none, some (.rmarker 3)⟩ ∧
      ∃ w', exec 7 (.res natNatTag ⟨5, 5⟩ (.nat 1) (.nat 2)) wPend = .ok w' ∧
        w'.trace = .rcb 3 (.nat 1) (.nat 2) :: wPend.trace ∧
        w'.log = wPend.log ∧
        lookupW natNatTag ⟨5, 5⟩ w' = none ∧
        ∀ t i, i ≠ ⟨5, 5⟩ → lookupW t i w' = lookupW t i wPend :=
  ⟨rfl,
    (c6_resolve_present_fires_and_removes natNatTag ⟨5, 5⟩
        ⟨none, none, some (.rmarker 3)⟩ (.nat 1) (.nat 2) wPend 5 rfl).1 3 rfl⟩

/-- C5: promise_register first extracts and clears the register callback,
then inserts the stripped node into the registry keyed by the node's own
identity, and only then invokes the callback with the identity
(lib.rs 49-60).  Consequently the node is already discoverable when the
callback runs, so a register callback that synchronously resolves its own
identity (third part) succeeds, fires the stored resolve callback and
leaves the identity removed, instead of hitting the absent branch of
resolve. -/
theorem c5_register_inserts_before_invoking (tag : TyTag) (w : World) (fuel : Nat) :
    (∀ p cb, p.regCb = some cb →
      exec (fuel + 1) (.reg tag p) w
        = exec fuel (.runC cb p.id)
            (w.setReg tag (Reg.insertN p.id ⟨none, p.disCb, p.resCb⟩ (w.getReg tag))) ∧
      lookupW tag p.id
          (w.setReg tag (Reg.insertN p.id ⟨none, p.disCb, p.resCb⟩ (w.getReg tag)))
        = some ⟨none, p.disCb, p.resCb⟩) ∧
    (∀ id dcb rescb,
      exec (fuel + 1) (.reg tag (.mk id none dcb rescb)) w
        = .ok (w.setReg tag (Reg.insertN id ⟨none, dcb, rescb⟩ (w.getReg tag)))) ∧
    (∀ id dcb k s r,
      ∃ w', exec (fuel + 4)
          (.reg tag (.mk id (some (.resolveWith tag s r)) dcb (some (.rmarker k)))) w
        = .ok w' ∧
        w'.trace = .rcb k s r :: w.trace ∧
        lookupW tag id w' = none) := by
  refine ⟨?_, ?_, ?_⟩
  · intro p cb hcb
    cases p with
    | mk pid rcb dcb rescb =>
      simp only [Prom.regCb] at hcb
      subst hcb
      exact ⟨by simp only [exec, Prom.id, Prom.disCb, Prom.resCb],
        by rw [Prom.id, Prom.disCb, Prom.resCb, lookupW_setReg, if_pos rfl,
          lookup_insertN_self]⟩
  · intro id dcb rescb
    simp only [exec]
  · intro id dcb k s r
    simp only [exec, getReg_setReg_self, lookup_insertN_self, Res.bind]
    refine ⟨_, rfl, rfl, ?_⟩
    rw [lookupW_setReg, if_pos rfl, lookup_removeN_self]

theorem c5_register_inserts_before_invoking_witness :
    (exec 3 (.reg natNatTag (.mk ⟨9, 9⟩ (some (.marker 1)) none none)) w0
        = exec 2 (.runC (.marker 1) (Prom.id (.mk ⟨9, 9⟩ (some (.marker 1)) none none)))
            (w0.setReg natNatTag
              (Reg.insertN (Prom.id (.mk ⟨9, 9⟩ (some (.marker 1)) none none))
                ⟨none, none, none⟩ (w0.getReg natNatTag))) ∧
      lookupW natNatTag (Prom.id (.mk ⟨9, 9⟩ (some (.marker 1)) none none))
          (w0.setReg natNatTag
            (Reg.insertN (Prom.id (.mk ⟨9, 9⟩ (some (.marker 1)) none none))
              ⟨none, none, none⟩ (w0.getReg natNatTag)))
        = some ⟨none, none, none⟩) ∧
    ∃ w', exec 7
        (.reg natNatTag (.mk ⟨9, 9⟩ (some (.resolveWith natNatTag (.nat 1) (.nat 2)))
          none (some (.rmarker 4)))) w0
      = .ok w' ∧
      w'.trace = .rcb 4 (.nat 1) (.nat 2) :: w0.trace ∧
      lookupW natNatTag ⟨9, 9⟩ w' = none :=
  ⟨(c5_register_inserts_before_invoking natNatTag w0 2).1
      (.mk ⟨9, 9⟩ (some (.marker 1)) none none) (.marker 1) rfl,
    (c5_register_inserts_before_invoking natNatTag w0 3).2.2 ⟨9, 9⟩ none 4 (.nat 1) (.nat 2)⟩

/-- C10: registering a node whose identity already has a stored pending
node silently replaces that binding: the run is entirely independent of
the previously stored node (so its resolve and discard callbacks can never
be invoked), and nothing is logged (lib.rs 57, HashMap insert). -/
theorem c10_register_existing_id_replaces_silently (tag : TyTag) (p : Prom)
    (old : Node) (w : World) (fuel : Nat) (h : lookupW tag p.id w = some old) :
    exec fuel (.reg tag p) w
      = exec fuel (.reg tag p) (w.setReg tag (Reg.removeN p.id (w.getReg tag))) ∧
    (p.regCb = none →
      ∃ w', exec (fuel + 1) (.reg tag p) w = .ok w' ∧
        w'.log = w.log ∧ w'.trace = w.trace ∧
        lookupW tag p.id w' = some ⟨none, p.disCb, p.resCb⟩ ∧
        ∀ t i, i ≠ p.id → lookupW t i w' = lookupW t i w) := by
  cases p with
  | mk pid rcb dcb rescb =>
    constructor
    · cases fuel with
      | zero => rfl
      | succ n =>
        simp only [exec, Prom.id, getReg_setReg_self, insertN_removeN, setReg_setReg]
    · intro hreg
      simp only [Prom.regCb] at hreg
      subst hreg
      simp only [exec, Prom.id, Prom.disCb, Prom.resCb]
      refine ⟨_, rfl, rfl, rfl, ?_, ?_⟩
      · rw [lookupW_setReg, if_pos rfl, lookup_insertN_self]
      · intro t i hi
        rw [lookupW_setReg]
        by_cases ht : t = tag
        · rw [if_pos ht, ht, lookup_insertN_ne i pid _ _ hi]
          rfl
        · rw [if_neg ht]

theorem c10_register_existing_id_replaces_silently_witness :
    lookupW natNatTag (Prom.id (.mk ⟨6, 6⟩ none (some (.marker 2)) none)) wOld
        = some ⟨none, some .noop, some (.rmarker 8)⟩ ∧
      (exec 4 (.reg natNatTag (.mk ⟨6, 6⟩ none (some (.marker 2)) none)) wOld
        = exec 4 (.reg natNatTag (.mk ⟨6, 6⟩ none (some (.marker 2)) none))
            (wOld.setReg natNatTag
              (Reg.removeN (Prom.id (.mk ⟨6, 6⟩ none (some (.marker 2)) none))
                (wOld.getReg natNatTag)))) ∧
      ∃ w', exec 5 (.reg natNatTag (.mk ⟨6, 6⟩ none (some (.marker 2)) none)) wOld
          = .ok w' ∧
        w'.log = wOld.log ∧ w'.trace = wOld.trace ∧
        lookupW natNatTag (Prom.id (.mk ⟨6, 6⟩ none (some (.marker 2)) none)) w'
          = some ⟨none, some (.marker 2), none⟩ ∧
        ∀ t i, i ≠ Prom.id (.mk ⟨6, 6⟩ none (some (.marker 2)) none) →
          lookupW t i w' = lookupW t i wOld :=
  ⟨rfl,
    (c10_register_existing_id_replaces_silently natNatTag
        (.mk ⟨6, 6⟩ none (some (.marker 2)) none) ⟨none, some .noop, some (.rmarker 8)⟩
        wOld 4 rfl).1,
    (c10_register_existing_id_replaces_silently natNatTag
        (.mk ⟨6, 6⟩ none (some (.marker 2)) none) ⟨none, some .noop, some (.rmarker 8)⟩
        wOld 4 rfl).2 rfl⟩

theorem lookupW_regs_eq {w w' : World} (he : w'.regs = w.regs) (t : TyTag)
    (i : PromiseId) : lookupW t i w' = lookupW t i w := by
  unfold lookupW World.getReg
  rw [he]

theorem RegInv_of_regs_eq {w w' : World} (h : RegInv w) (he : w'.regs = w.regs) :
    RegInv w' :=
  fun tag id nd hl => h tag id nd (by rwa [lookupW_regs_eq he] at hl)

theorem RegInv_setReg_insert {w : World} (h : RegInv w) (tag : TyTag)
    (id : PromiseId) (nd : Node) (hnd : nd.reg = none) :
    RegInv (w.setReg tag (Reg.insertN id nd (w.getReg tag))) := by
  intro t i nd' hl
  rw [lookupW_setReg] at hl
  by_cases ht : t = tag
  · rw [if_pos ht] at hl
    by_cases hi : i = id
    · subst hi
      rw [lookup_insertN_self] at hl
      injection hl with h1
      rw [← h1]
      exact hnd
    · rw [lookup_insertN_ne i id _ _ hi] at hl
      exact h tag i nd' hl
  · rw [if_neg ht] at hl
    exact h t i nd' hl

theorem RegInv_setReg_remove {w : World} (h : RegInv w) (tag : TyTag)
    (id : PromiseId) :
    RegInv (w.setReg tag (Reg.removeN id (w.getReg tag))) := by
  intro t i nd' hl
  rw [lookupW_setReg] at hl
  by_cases ht : t = tag
  · rw [if_pos ht, lookup_removeN] at hl
    by_cases hi : i = id
    · rw [if_pos hi] at hl
      exact Option.noConfusion hl
    · rw [if_neg hi] at hl
      exact h tag i nd' hl
  · rw [if_neg ht] at hl
    exact h t i nd' hl

theorem RegInv_remove_after {w2 w' : World} (tag : TyTag) (id : PromiseId)
    (h2 : RegInv w2)
    (he : Res.ok (w2.setReg tag (Reg.removeN id (w2.getReg tag))) = Res.ok w') :
    RegInv w' := by
  injection he with he'
  rw [← he']
  exact RegInv_setReg_remove h2 tag id

theorem evalFn2_effects (f : Fn2) (s r : Val) (w : World) (pr : PRes) (w1 : World)
    (h : evalFn2 f s r w = some (pr, w1)) : w1.regs = w.regs := by
  unfold evalFn2 at h
  split at h
  all_goals try split at h
  all_goals first
  | exact Option.noConfusion h
  | (simp only [Option.some.injEq, Prod.mk.injEq, freshPid] at h
     obtain ⟨h1, h2⟩ := h
     rw [← h2])

theorem evalFn0_effects (f : Fn0) (w : World) (pr : PRes) (w1 : World)
    (h : evalFn0 f w = some (pr, w1)) : w1 = w := by
  cases f with
  | pres s r =>
    simp only [evalFn0, Option.some.injEq, Prod.mk.injEq] at h
    exact h.2.symm
  | pawait p =>
    simp only [evalFn0, Option.some.injEq, Prod.mk.injEq] at h
    exact h.2.symm

theorem thenOp_world (a b : TyTag) (p : Prom) (f : Fn2) (w : World) :
    (thenOp a b p f w).2 = { w with nextLocal := w.nextLocal + 1 } := by
  cases p
  rfl

theorem mapOp_world (a b : TyTag) (p : Prom) (f : PFn) (w : World) :
    (mapOp a b p f w).2 = { w with nextLocal := w.nextLocal + 1 } := by
  cases p
  rfl

/-- Every successful interpreter step preserves the stripped-register
invariant: stored nodes never keep a register callback, because
promise_register is the only operation that inserts and it strips the
callback first, while resolve / discard only clear fields and remove. -/
theorem exec_preserves_RegInv :
    ∀ fuel op w w', RegInv w → exec fuel op w = .ok w' → RegInv w' := by
  intro fuel
  induction fuel with
  | zero =>
    intro op w w' _ hex
    exact Res.noConfusion hex
  | succ n ih =>
    intro op w w' hInv hex
    cases op with
    | res tag id s r =>
      simp only [exec] at hex
      cases hl : Reg.lookup id (w.getReg tag) with
      | none =>
        rw [hl] at hex
        exact Res.noConfusion hex
      | some nd =>
        rw [hl] at hex
        obtain ⟨w2, hb1, hb2⟩ := Res.bind_eq_ok hex
        have hreg : nd.reg = none := hInv tag id nd hl
        have hw1 : RegInv (w.setReg tag
            (Reg.insertN id { nd with res := none } (w.getReg tag))) :=
          RegInv_setReg_insert hInv tag id _ hreg
        have h2 : RegInv w2 := by
          cases hr : nd.res with
          | none =>
            rw [hr] at hb1
            injection hb1 with hb1'
            rw [← hb1']
            exact hw1
          | some rc =>
            rw [hr] at hb1
            exact ih _ _ _ hw1 hb1
        exact RegInv_remove_after tag id h2 hb2
    | reg tag p =>
      cases p with
      | mk pid rcb dcb rescb =>
        simp only [exec] at hex
        have hw1 : RegInv (w.setReg tag
            (Reg.insertN pid ⟨none, dcb, rescb⟩ (w.getReg tag))) :=
          RegInv_setReg_insert hInv tag pid _ rfl
        cases rcb with
        | none =>
          injection hex with hex'
          rw [← hex']
          exact hw1
        | some c =>
          exact ih _ _ _ hw1 hex
    | dis tag id =>
      simp only [exec] at hex
      cases hl : Reg.lookup id (w.getReg tag) with
      | none =>
        rw [hl] at hex
        injection hex with hex'
        rw [← hex']
        exact RegInv_setReg_remove
          (@RegInv_of_regs_eq w { w with log := _ :: w.log } hInv rfl) tag id
      | some nd =>
        rw [hl] at hex
        obtain ⟨w2, hb1, hb2⟩ := Res.bind_eq_ok hex
        have hreg : nd.reg = none := hInv tag id nd hl
        have hw1 : RegInv (w.setReg tag
            (Reg.insertN id { nd with dis := none } (w.getReg tag))) :=
          RegInv_setReg_insert hInv tag id _ hreg
        have h2 : RegInv w2 := by
          cases hr : nd.dis with
          | none =>
            rw [hr] at hb1
            injection hb1 with hb1'
            rw [← hb1']
            exact hw1
          | some c =>
            rw [hr] at hb1
            exact ih _ _ _ hw1 hb1
        exact RegInv_remove_after tag id h2 hb2
    | runC c id =>
      cases c with
      | marker k =>
        simp only [exec] at hex
        injection hex with hex'
        rw [← hex']
        exact RegInv_of_regs_eq hInv rfl
      | noop =>
        simp only [exec] at hex
        injection hex with hex'
        rw [← hex']
        exact hInv
      | resolveWith tag s r =>
        simp only [exec] at hex
        exact ih _ _ _ hInv hex
      | newReg tag f =>
        simp only [exec] at hex
        cases hf : evalFn0 f w with
        | none =>
          rw [hf] at hex
          exact Res.noConfusion hex
        | some pw =>
          obtain ⟨pr, w1⟩ := pw
          rw [hf] at hex
          simp only at hex
          have hw1 : RegInv w1 := by
            rw [evalFn0_effects f w pr w1 hf]
            exact hInv
          cases pr with
          | res s r =>
            exact ih _ _ _ hw1 hex
          | await p =>
            cases p with
            | mk pid prcb pdcb presolve =>
              simp only at hex
              by_cases hps : presolve.isSome = true
              · rw [if_pos hps] at hex
                injection hex with hex'
                rw [← hex']
                exact RegInv_of_regs_eq hw1 rfl
              · rw [if_neg hps] at hex
                exact ih _ _ _ hw1 hex
      | thenReg tagUp p =>
        simp only [exec] at hex
        exact ih _ _ _ hInv hex
      | thenDiscardDown tagDown downId =>
        simp only [exec] at hex
        exact ih _ _ _ hInv hex
      | runSaved saved selfId =>
        simp only [exec] at hex
        cases saved with
        | none =>
          injection hex with hex'
          rw [← hex']
          exact hInv
        | some c =>
          exact ih _ _ _ hInv hex
      | anyOuterReg tag sibs ids =>
        simp only [exec] at hex
        exact ih _ _ _ hInv hex
      | anyOuterDiscard tag ids =>
        simp only [exec] at hex
        exact ih _ _ _ hInv hex
      | anyInner tag ids idx anyId state r =>
        simp only [exec] at hex
        obtain ⟨w2, hb1, hb2⟩ := Res.bind_eq_ok hex
        exact ih _ _ _ (ih _ _ _ hInv hb1) hb2
      | allOuterReg tag sibs size =>
        simp only [exec] at hex
        refine ih _ _ _ ?_ hex
        exact RegInv_of_regs_eq hInv rfl
      | allOuterDiscard tag ids =>
        simp only [exec] at hex
        exact ih _ _ _ hInv hex
      | allInner tag ptr idx anyId s r =>
        simp only [exec] at hex
        cases hg : heapGet w ptr with
        | none =>
          rw [hg] at hex
          exact Res.noConfusion hex
        | some slots =>
          rw [hg] at hex
          simp only at hex
          by_cases hall : (slots.set idx (some (s, r))).all Option.isSome = true
          · rw [if_pos hall] at hex
            have : RegInv (heapFree (heapSet w ptr (slots.set idx (some (s, r)))) ptr) :=
              RegInv_of_regs_eq hInv rfl
            exact ih _ _ _ this hex
          · rw [if_neg hall] at hex
            injection hex with hex'
            rw [← hex']
            exact RegInv_of_regs_eq hInv rfl
    | runR c s r =>
      cases c with
      | rmarker k =>
        simp only [exec] at hex
        injection hex with hex'
        rw [← hex']
        exact RegInv_of_regs_eq hInv rfl
      | redirect tag target =>
        simp only [exec] at hex
        exact ih _ _ _ hInv hex
      | thenCont tagDown downId f =>
        simp only [exec] at hex
        cases hf : evalFn2 f s r w with
        | none =>
          rw [hf] at hex
          exact Res.noConfusion hex
        | some pw =>
          obtain ⟨pr, w1⟩ := pw
          rw [hf] at hex
          simp only at hex
          have hw1 : RegInv w1 :=
            RegInv_of_regs_eq hInv (evalFn2_effects f s r w pr w1 hf)
          cases pr with
          | res s2 r2 =>
            exact ih _ _ _ hw1 hex
          | await p =>
            cases p with
            | mk pid prcb pdcb presolve =>
              simp only at hex
              by_cases hps : presolve.isSome = true
              · rw [if_pos hps] at hex
                injection hex with hex'
                rw [← hex']
                exact RegInv_of_regs_eq hw1 rfl
              · rw [if_neg hps] at hex
                exact ih _ _ _ hw1 hex
      | mapS tagDown downId f =>
        simp only [exec] at hex
        exact ih _ _ _ hInv hex
      | mapR tagDown downId f =>
        simp only [exec] at hex
        exact ih _ _ _ hInv hex
    | disList tag ids =>
      cases ids with
      | nil =>
        simp only [exec] at hex
        injection hex with hex'
        rw [← hex']
        exact hInv
      | cons i rest =>
        simp only [exec] at hex
        obtain ⟨w2, hb1, hb2⟩ := Res.bind_eq_ok hex
        exact ih _ _ _ (ih _ _ _ hInv hb1) hb2
    | anyLoop tag sibs ids anyId idx =>
      cases sibs with
      | nil =>
        simp only [exec] at hex
        injection hex with hex'
        rw [← hex']
        exact hInv
      | cons p rest =>
        simp only [exec] at hex
        obtain ⟨w2, hb1, hb2⟩ := Res.bind_eq_ok hex
        have : RegInv (thenOp unitTag (anyMapTag tag)
            (mapOp (anyMapTag tag) tag p (.tagAnyF anyId idx ids) w).1 (.anyCont tag)
            (mapOp (anyMapTag tag) tag p (.tagAnyF anyId idx ids) w).2).2 := by
          rw [thenOp_world, mapOp_world]
          exact RegInv_of_regs_eq hInv rfl
        exact ih _ _ _ (ih _ _ _ this hb1) hb2
    | allLoop tag sibs anyId ptr idx =>
      cases sibs with
      | nil =>
        simp only [exec] at hex
        injection hex with hex'
        rw [← hex']
        exact hInv
      | cons p rest =>
        simp only [exec] at hex
        obtain ⟨w2, hb1, hb2⟩ := Res.bind_eq_ok hex
        have : RegInv (thenOp unitTag (allMapTag tag)
            (mapOp (allMapTag tag) tag p (.tagAllF anyId idx ptr) w).1 (.allCont tag)
            (mapOp (allMapTag tag) tag p (.tagAllF anyId idx ptr) w).2).2 := by
          rw [thenOp_world, mapOp_world]
          exact RegInv_of_regs_eq hInv rfl
        exact ih _ _ _ (ih _ _ _ this hb1) hb2

/-- C2 counterexample: registering the node built by the Promise::register
escape hatch (lib.rs 321-331) stores it with its register callback
stripped but with NO resolve callback, while the identity is present in
the registry: the claimed invariant half (resolve set) fails on this
reachable state. -/
theorem c2_escape_hatch_node_stored_without_resolve :
    ((exec 3 (.reg natNatTag (registerOp (.marker 5) .noop w0).1)
        (registerOp (.marker 5) .noop w0).2).okWorld.bind fun w =>
      (lookupW natNatTag ⟨0, 1⟩ w).map fun nd => (nd.reg.isNone, nd.res.isNone))
      = some (true, true) := rfl

/-- C2 amended: after any sequence of operations run from a world
satisfying it (in particular the empty world), every identity present in
any (S, R) registry maps to a node whose register callback is unset.  The
resolve half of the claimed invariant is dropped: a stored node's resolve
callback may legitimately be unset (escape hatch roots and new roots
awaiting a child), see the counterexample. -/
theorem c2_amended_stored_nodes_are_register_stripped :
    ∀ fuel ops (w w' : World), RegInv w → runOps fuel ops w = .ok w' → RegInv w' := by
  intro fuel ops
  induction ops with
  | nil =>
    intro w w' h hex
    injection hex with he
    rw [← he]
    exact h
  | cons op rest ih =>
    intro w w' h hex
    simp only [runOps] at hex
    obtain ⟨w1, h1, h2⟩ := Res.bind_eq_ok hex
    exact ih w1 w' (exec_preserves_RegInv fuel op w w1 h h1) h2

theorem c2_amended_stored_nodes_are_register_stripped_witness :
    ∃ w', runOps 3 [.reg natNatTag (extSib 0)] w0 = .ok w' ∧ RegInv w' := by
  refine ⟨_, rfl, ?_⟩
  exact c2_amended_stored_nodes_are_register_stripped 3 [.reg natNatTag (extSib 0)]
    w0 _ (fun tag id nd h => Option.noConfusion h) rfl

/-- The identities of a generation sequence carry the thread token of the
call that produced them. -/
theorem genIds_thread (ts : List Nat) (c : Nat → Nat) :
    ∀ p ∈ genIds ts c, p.thread ∈ ts := by
  induction ts generalizing c with
  | nil =>
    intro p hp
    cases hp
  | cons t ts ih =>
    intro p hp
    cases hp with
    | head => exact List.mem_cons_self t ts
    | tail _ hp2 => exact List.mem_cons_of_mem t (ih _ p hp2)

/-- A generation sequence returns one identity per call. -/
theorem genIds_length (ts : List Nat) (c : Nat → Nat) :
    (genIds ts c).length = ts.length := by
  induction ts generalizing c with
  | nil => rfl
  | cons t ts ih => simp [genIds, ih]

/-- Every identity of a generation sequence holds, as local counter, the
starting entry of its thread advanced i places modulo 2^64, where i is
at least 1 and at most the number of calls its thread makes. -/
theorem genIds_localN (ts : List Nat) (c : Nat → Nat) :
    ∀ p ∈ genIds ts c, ∃ i, 1 ≤ i ∧ i ≤ ts.count p.thread
      ∧ p.localN = (c p.thread + i) % usizeSize := by
  induction ts generalizing c with
  | nil =>
    intro p hp
    cases hp
  | cons t ts ih =>
    intro p hp
    cases hp with
    | head =>
      refine ⟨1, le_refl 1, ?_, ?_⟩
      · have h1 : ((pidNew t c).1).thread = t := rfl
        rw [h1, List.count_cons_self]
        omega
      · rfl
    | tail _ hp2 =>
      obtain ⟨i, hi1, hi2, hloc⟩ := ih (pidNew t c).2 p hp2
      by_cases he : p.thread = t
      · refine ⟨i + 1, by omega, ?_, ?_⟩
        · rw [he, List.count_cons_self]
          rw [he] at hi2
          omega
        · rw [hloc, he]
          have hupd : (pidNew t c).2 t = (c t + 1) % usizeSize := by
            simp [pidNew]
          rw [hupd, Nat.mod_add_mod]
          congr 1
          omega
      · refine ⟨i, hi1, ?_, ?_⟩
        · rw [List.count_cons]
          split
          · omega
          · omega
        · rw [hloc]
          have hupd : (pidNew t c).2 p.thread = c p.thread := by
            simp [pidNew, he]
          rw [hupd]

/-- C9 counterexample: because the usize counter wraps modulo 2^64 on
the release-build increment (lib.rs 127), a thread that calls the
identity generator 2^64 + 1 times from process start repeats an
identity, so the generated sequence is not pairwise distinct. -/
theorem c9_counter_wrap_repeats_an_id :
    ¬ (genIds (List.replicate (usizeSize + 1) 0) (fun _ => 0)).Nodup := by
  intro hnd
  have hth : ∀ p ∈ genIds (List.replicate (usizeSize + 1) 0) (fun _ => 0),
      p.thread = 0 := by
    intro p hp
    have hm := genIds_thread _ _ p hp
    simpa using hm
  have hmap : ((genIds (List.replicate (usizeSize + 1) 0)
      (fun _ => 0)).map PromiseId.localN).Nodup := by
    refine hnd.map_on ?_
    intro x hx y hy hf
    have hx0 := hth x hx
    have hy0 := hth y hy
    cases x
    cases y
    simp_all
  have hlt : ∀ v ∈ (genIds (List.replicate (usizeSize + 1) 0)
      (fun _ => 0)).map PromiseId.localN, v < usizeSize := by
    intro v hv
    simp only [List.mem_map] at hv
    obtain ⟨p, hp, rfl⟩ := hv
    obtain ⟨i, _, _, hloc⟩ := genIds_localN _ _ p hp
    rw [hloc]
    exact Nat.mod_lt _ (by norm_num [usizeSize])
  have hlen : ((genIds (List.replicate (usizeSize + 1) 0)
      (fun _ => 0)).map PromiseId.localN).length = usizeSize + 1 := by
    rw [List.length_map, genIds_length, List.length_replicate]
  have hsub : ((genIds (List.replicate (usizeSize + 1) 0)
      (fun _ => 0)).map PromiseId.localN).toFinset ⊆ Finset.range usizeSize := by
    intro v hv
    rw [List.mem_toFinset] at hv
    exact Finset.mem_range.mpr (hlt v hv)
  have hcard := Finset.card_le_card hsub
  rw [List.toFinset_card_of_nodup hmap, hlen, Finset.card_range] at hcard
  omega

/-- C9 (amended): every sequence of identity generator calls, across any
interleaving of threads and from any starting counter state, returns
pairwise distinct PromiseId values provided each thread makes at most
2^64 of the calls (same thread never repeats a local counter inside one
wrap window, different threads differ in the thread token); beyond one
window the wrapping usize counter repeats. -/
theorem c9_promise_ids_distinct_within_wrap_window (ts : List Nat)
    (c : Nat → Nat) (hts : ∀ t, ts.count t ≤ usizeSize) :
    (genIds ts c).Nodup := by
  induction ts generalizing c with
  | nil => simp [genIds]
  | cons t ts ih =>
    simp only [genIds, List.nodup_cons]
    refine ⟨?_, ?_⟩
    · intro hmem
      obtain ⟨i, hi1, hi2, hloc⟩ := genIds_localN ts (pidNew t c).2 _ hmem
      have hi2t : i ≤ ts.count t := hi2
      have hloct : (c t + 1) % usizeSize
          = ((pidNew t c).2 t + i) % usizeSize := hloc
      have hupd : (pidNew t c).2 t = (c t + 1) % usizeSize := by
        simp [pidNew]
      rw [hupd, Nat.mod_add_mod] at hloct
      have hdvd : usizeSize ∣ (c t + 1 + i - (c t + 1)) :=
        (Nat.modEq_iff_dvd' (Nat.le_add_right _ _)).mp hloct
      have hdvd2 : usizeSize ∣ i := by simpa using hdvd
      have hle : usizeSize ≤ i := Nat.le_of_dvd (by omega) hdvd2
      have hc := hts t
      rw [List.count_cons_self] at hc
      omega
    · refine ih _ ?_
      intro u
      have hc := hts u
      rw [List.count_cons] at hc
      split at hc
      · omega
      · omega

theorem c9_promise_ids_distinct_within_wrap_window_witness :
    (∀ t : Nat, ([0, 1, 0] : List Nat).count t ≤ usizeSize) ∧
    (genIds [0, 1, 0] (fun _ => 0)).Nodup :=
  ⟨fun t => le_trans (List.count_le_length _ _) (by norm_num [usizeSize]),
    c9_promise_ids_distinct_within_wrap_window [0, 1, 0] (fun _ => 0)
      (fun t => le_trans (List.count_le_length _ _) (by norm_num [usizeSize]))⟩

/-- C3: with two external siblings combined by `any` and observed through
a chained user continuation, resolving sibling 0 first resolves the
parent with exactly that sibling's (state, result) pair (one observer
event), removes both the winning and the discarded sibling identities
from the (S, R) registry, and a follow-up discard of the losing sibling
is the logged no-op the claim describes; but the follow-up resolve the
claim also calls a stale-identity no-op instead panics, because of the
unwrap defect of promise_resolve (lib.rs 33). -/
theorem c3_any_first_resolution_wins_stale_resolve_panics :
    (c3run.okWorld.map (fun w =>
        (w.trace, (lookupW natNatTag ⟨1, 2⟩ w).isNone,
          (lookupW natNatTag ⟨1, 1⟩ w).isNone, w.log)))
      = some ([.rcb 99 .unit (.pair (.nat 7) (.nat 10)),
                .cb 11 ⟨1, 2⟩, .cb 10 ⟨1, 1⟩], true, true, []) ∧
    (c3run.okWorld.map (fun w =>
        (exec 9 (.dis natNatTag ⟨1, 2⟩) w).okWorld.map World.log))
      = some (some [.discardMissing natNatTag ⟨1, 2⟩]) ∧
    (c3run.okWorld.map (fun w => exec 9 (.res natNatTag ⟨1, 2⟩ (.nat 0) (.nat 0)) w))
      = some .panicked :=
  ⟨rfl, rfl, rfl⟩

theorem lookupW_traceCons (w : World) (e : Ev) (t : TyTag) (i : PromiseId) :
    lookupW t i { w with trace := e :: w.trace } = lookupW t i w := rfl

/-- Registering the downstream node produced by `then` over a pending
escape hatch upstream stores the stripped downstream node, drives the
upstream through promise_register (storing it with the rewired resolve
and discard), runs the upstream user register callback, and changes no
other binding. -/
theorem reg_then_node (tagUp tagDown : TyTag) (q pid : PromiseId) (a b : Nat)
    (f : Fn2) (w' : World) (fuel : Nat) :
    exec (fuel + 4)
        (.reg tagDown (Prom.mk q
          (some (.thenReg tagUp (.mk pid (some (.marker a))
            (some (.thenDiscardDown tagDown q))
            (some (.thenCont tagDown q f)))))
          (some (.runSaved (some (.marker b)) pid)) none))
        w'
      = .ok (regThenWorld tagUp tagDown q pid a b f w') ∧
    (q ≠ pid → lookupW tagDown q (regThenWorld tagUp tagDown q pid a b f w')
      = some ⟨none, some (.runSaved (some (.marker b)) pid), none⟩) ∧
    lookupW tagUp pid (regThenWorld tagUp tagDown q pid a b f w')
      = some ⟨none, some (.thenDiscardDown tagDown q), some (.thenCont tagDown q f)⟩ ∧
    (regThenWorld tagUp tagDown q pid a b f w').trace = .cb a pid :: w'.trace ∧
    (∀ t i, i ≠ q → i ≠ pid →
      lookupW t i (regThenWorld tagUp tagDown q pid a b f w') = lookupW t i w') := by
  refine ⟨?_, ?_, ?_, ?_, ?_⟩
  · simp only [exec, regThenWorld]
  · intro hqp
    simp only [regThenWorld]
    rw [lookupW_traceCons, lookupW_setReg]
    by_cases htag : tagDown = tagUp
    · rw [if_pos htag, lookup_insertN_ne q pid _ _ hqp, ← htag, getReg_setReg_self,
        lookup_insertN_self]
    · rw [if_neg htag, lookupW_setReg, if_pos rfl, lookup_insertN_self]
  · simp only [regThenWorld]
    rw [lookupW_traceCons, lookupW_setReg, if_pos rfl, lookup_insertN_self]
  · rfl
  · intro t i hiq hip
    simp only [regThenWorld]
    rw [lookupW_traceCons, lookupW_setReg]
    by_cases h1 : t = tagUp
    · rw [if_pos h1, lookup_insertN_ne i pid _ _ hip, h1]
      by_cases h2 : tagUp = tagDown
      · rw [h2, getReg_setReg_self, lookup_insertN_ne i q _ _ hiq]
        rfl
      · rw [getReg_setReg_ne w' tagUp tagDown _ h2]
        rfl
    · rw [if_neg h1, lookupW_setReg]
      by_cases h2 : t = tagDown
      · rw [if_pos h2, lookup_insertN_ne i q _ _ hiq, h2]
        rfl
      · rw [if_neg h2]

/-- Discarding a stored downstream node whose discard callback is the
saved-upstream-cleanup closure of `then` runs that cleanup at the upstream
id, removes the downstream identity, and touches no other binding. -/
theorem discard_runSaved_removes_only_self (tagDown : TyTag) (q pid : PromiseId)
    (b : Nat) (w1 : World) (fuel : Nat)
    (hq : lookupW tagDown q w1
      = some ⟨none, some (.runSaved (some (.marker b)) pid), none⟩) :
    ∃ w2, exec (fuel + 3) (.dis tagDown q) w1 = .ok w2 ∧
      lookupW tagDown q w2 = none ∧
      (∀ t i, i ≠ q → lookupW t i w2 = lookupW t i w1) ∧
      w2.trace = .cb b pid :: w1.trace ∧
      w2.log = w1.log := by
  unfold lookupW at hq
  simp only [exec]
  rw [hq]
  simp only [Res.bind]
  refine ⟨_, rfl, ?_, ?_, rfl, rfl⟩
  · rw [lookupW_setReg, if_pos rfl, lookup_removeN_self]
  · intro t i hi
    rw [lookupW_setReg]
    by_cases ht : t = tagDown
    · rw [if_pos ht, ht]
      have hgr :
          ({ w1.setReg tagDown
                (Reg.insertN q
                  ⟨none, none, none⟩ (w1.getReg tagDown)) with
              trace := Ev.cb b pid ::
                (w1.setReg tagDown
                  (Reg.insertN q ⟨none, none, none⟩ (w1.getReg tagDown))).trace } :
            World).getReg tagDown
          = Reg.insertN q ⟨none, none, none⟩ (w1.getReg tagDown) :=
        getReg_setReg_self w1 tagDown _
      rw [hgr, lookup_removeN, if_neg hi, lookup_insertN_ne i q _ _ hi]
      rfl
    · rw [if_neg ht]
      exact (lookupW_setReg t tagDown i
        (Reg.insertN q ⟨none, none, none⟩ (w1.getReg tagDown)) w1).trans (if_neg ht)

/-- C8: for any upstream escape hatch node p (register callback `marker a`,
discard cleanup `marker b`) and any continuation f, register the downstream
q = p.then(f) and then discard q: the downstream identity is removed from
its registry, the upstream identity keeps exactly the binding registration
gave it (resolve wired to the continuation, discard wired to cancel q) and
every other binding is untouched; the upstream cleanup closure is invoked,
but the upstream node is not discarded (lib.rs 333-384). -/
theorem c8_discard_of_then_downstream_spares_upstream (tagUp tagDown : TyTag)
    (pid : PromiseId) (a b : Nat) (f : Fn2) (w : World) (fuel : Nat)
    (hpid : pid ≠ ⟨0, w.nextLocal + 1⟩) :
    ∃ w1 w2,
      exec (fuel + 4)
          (.reg tagDown
            (thenOp tagDown tagUp (.mk pid (some (.marker a)) (some (.marker b)) none) f w).1)
          (thenOp tagDown tagUp (.mk pid (some (.marker a)) (some (.marker b)) none) f w).2
        = .ok w1 ∧
      lookupW tagUp pid w1
        = some ⟨none, some (.thenDiscardDown tagDown ⟨0, w.nextLocal + 1⟩),
            some (.thenCont tagDown ⟨0, w.nextLocal + 1⟩ f)⟩ ∧
      lookupW tagDown ⟨0, w.nextLocal + 1⟩ w1
        = some ⟨none, some (.runSaved (some (.marker b)) pid), none⟩ ∧
      exec (fuel + 3) (.dis tagDown ⟨0, w.nextLocal + 1⟩) w1 = .ok w2 ∧
      lookupW tagDown ⟨0, w.nextLocal + 1⟩ w2 = none ∧
      (∀ t i, i ≠ ⟨0, w.nextLocal + 1⟩ → lookupW t i w2 = lookupW t i w1) ∧
      w2.trace = .cb b pid :: w1.trace := by
  have hq : (⟨0, w.nextLocal + 1⟩ : PromiseId) ≠ pid := fun he => hpid he.symm
  simp only [thenOp, freshPid, Prom.id]
  obtain ⟨h1, h2, h3, _, _⟩ :=
    reg_then_node tagUp tagDown ⟨0, w.nextLocal + 1⟩ pid a b f
      { w with nextLocal := w.nextLocal + 1 } fuel
  obtain ⟨w2, g1, g2, g3, g4, _⟩ :=
    discard_runSaved_removes_only_self tagDown ⟨0, w.nextLocal + 1⟩ pid b
      (regThenWorld tagUp tagDown ⟨0, w.nextLocal + 1⟩ pid a b f
        { w with nextLocal := w.nextLocal + 1 }) fuel (h2 hq)
  exact ⟨_, w2, h1, h3, h2 hq, g1, g2, g3, g4⟩

theorem c8_discard_of_then_downstream_spares_upstream_witness :
    ∃ w1 w2,
      exec 9
          (.reg unitTag
            (thenOp unitTag natNatTag
              (.mk ⟨1, 1⟩ (some (.marker 3)) (some (.marker 4)) none)
              (.toRes .unit .unit) w0).1)
          (thenOp unitTag natNatTag
            (.mk ⟨1, 1⟩ (some (.marker 3)) (some (.marker 4)) none)
            (.toRes .unit .unit) w0).2
        = .ok w1 ∧
      lookupW natNatTag ⟨1, 1⟩ w1
        = some ⟨none, some (.thenDiscardDown unitTag ⟨0, 1⟩),
            some (.thenCont unitTag ⟨0, 1⟩ (.toRes .unit .unit))⟩ ∧
      lookupW unitTag ⟨0, 1⟩ w1
        = some ⟨none, some (.runSaved (some (.marker 4)) ⟨1, 1⟩), none⟩ ∧
      exec 8 (.dis unitTag ⟨0, 1⟩) w1 = .ok w2 ∧
      lookupW unitTag ⟨0, 1⟩ w2 = none ∧
      (∀ t i, i ≠ ⟨0, 1⟩ → lookupW t i w2 = lookupW t i w1) ∧
      w2.trace = .cb 4 ⟨1, 1⟩ :: w1.trace :=
  c8_discard_of_then_downstream_spares_upstream natNatTag unitTag ⟨1, 1⟩ 3 4
    (.toRes .unit .unit) w0 5 (by decide)

theorem lk_insert_ne (w : World) (tg : TyTag) (k : PromiseId) (nd : Node)
    (t : TyTag) (i : PromiseId) (h : i ≠ k) :
    Reg.lookup i ((w.setReg tg (Reg.insertN k nd (w.getReg tg))).getReg t)
      = Reg.lookup i (w.getReg t) := by
  by_cases ht : t = tg
  · subst ht
    rw [getReg_setReg_self, lookup_insertN_ne i k _ _ h]
  · rw [getReg_setReg_ne _ _ _ _ ht]

theorem lk_remove_ne (w : World) (tg : TyTag) (k : PromiseId)
    (t : TyTag) (i : PromiseId) (h : i ≠ k) :
    Reg.lookup i ((w.setReg tg (Reg.removeN k (w.getReg tg))).getReg t)
      = Reg.lookup i (w.getReg t) := by
  by_cases ht : t = tg
  · subst ht
    rw [getReg_setReg_self, lookup_removeN, if_neg h]
  · rw [getReg_setReg_ne _ _ _ _ ht]

theorem lkW_insert_ne (w : World) (tg : TyTag) (k : PromiseId) (nd : Node)
    (t : TyTag) (i : PromiseId) (h : i ≠ k) :
    lookupW t i (w.setReg tg (Reg.insertN k nd (w.getReg tg))) = lookupW t i w :=
  lk_insert_ne w tg k nd t i h

theorem lkW_remove_ne (w : World) (tg : TyTag) (k : PromiseId)
    (t : TyTag) (i : PromiseId) (h : i ≠ k) :
    lookupW t i (w.setReg tg (Reg.removeN k (w.getReg tg))) = lookupW t i w :=
  lk_remove_ne w tg k t i h

theorem lookupW_nextLocal (w : World) (c : Nat) (t : TyTag) (i : PromiseId) :
    lookupW t i { w with nextLocal := c } = lookupW t i w := rfl

theorem lookupW_traceSet (w : World) (tr : List Ev) (t : TyTag) (i : PromiseId) :
    lookupW t i { w with trace := tr } = lookupW t i w := rfl

theorem lookupW_heapSet (w : World) (p : Nat) (s : List (Option (Val × Val)))
    (t : TyTag) (i : PromiseId) :
    lookupW t i (heapSet w p s) = lookupW t i w := rfl

theorem lookupW_heapFree (w : World) (p : Nat) (t : TyTag) (i : PromiseId) :
    lookupW t i (heapFree w p) = lookupW t i w := rfl

theorem lookupW_heapAlloc (w : World) (c : List (Option (Val × Val))) (hn : Nat)
    (t : TyTag) (i : PromiseId) :
    lookupW t i { w with heap := (w.heapNext, some c) :: w.heap, heapNext := hn }
      = lookupW t i w := rfl

theorem heapGet_setReg (w : World) (tg : TyTag) (r : Reg) (p : Nat) :
    heapGet (w.setReg tg r) p = heapGet w p := rfl

theorem heapGet_nextLocal (w : World) (c : Nat) (p : Nat) :
    heapGet { w with nextLocal := c } p = heapGet w p := rfl

theorem heapGet_traceSet (w : World) (tr : List Ev) (p : Nat) :
    heapGet { w with trace := tr } p = heapGet w p := rfl

theorem heapGet_heapSet_self (w : World) (p : Nat) (s : List (Option (Val × Val))) :
    heapGet (heapSet w p s) p = some s := by
  simp [heapGet, heapSet, getPtr]

theorem heapGet_heapFree_self (w : World) (p : Nat) :
    heapGet (heapFree w p) p = none := by
  simp [heapGet, heapFree, getPtr]

theorem sibId_inj {i j : Nat} (h : sibId i = sibId j) : i = j := by
  simp [sibId] at h
  exact h

theorem sibId_ne {i j : Nat} (h : i ≠ j) : sibId i ≠ sibId j :=
  fun he => h (sibId_inj he)

theorem mapId_ne_sibId (i j : Nat) : mapId i ≠ sibId j := by
  simp [mapId, sibId]

theorem sibId_ne_mapId (i j : Nat) : sibId i ≠ mapId j := by
  simp [mapId, sibId]

theorem thenId_ne_sibId (i j : Nat) : thenId i ≠ sibId j := by
  simp [thenId, sibId]

theorem thenId_ne_mapId (i j : Nat) : thenId i ≠ mapId j := by
  intro h
  simp only [thenId, mapId] at h
  injection h with h1 h2
  omega

theorem mapId_inj {i j : Nat} (h : mapId i = mapId j) : i = j := by
  simp [mapId] at h
  omega

theorem parId_ne_sibId (j : Nat) : (⟨0, 1⟩ : PromiseId) ≠ sibId j := by
  simp [sibId]

theorem obsId_ne_sibId (j : Nat) : (⟨0, 2⟩ : PromiseId) ≠ sibId j := by
  simp [sibId]

theorem parId_ne_mapId (j : Nat) : (⟨0, 1⟩ : PromiseId) ≠ mapId j := by
  intro h
  simp only [mapId] at h
  injection h with h1 h2
  omega

theorem obsId_ne_mapId (j : Nat) : (⟨0, 2⟩ : PromiseId) ≠ mapId j := by
  intro h
  simp only [mapId] at h
  injection h with h1 h2
  omega

theorem parId_ne_thenId (j : Nat) : (⟨0, 1⟩ : PromiseId) ≠ thenId j := by
  intro h
  simp only [thenId] at h
  injection h with h1 h2
  omega

theorem obsId_ne_thenId (j : Nat) : (⟨0, 2⟩ : PromiseId) ≠ thenId j := by
  intro h
  simp only [thenId] at h
  injection h with h1 h2
  omega

theorem setupTrace_succ (n : Nat) :
    setupTrace (n + 1) = .cb (10 + n) (sibId n) :: setupTrace n := by
  simp [setupTrace, List.range_succ]

theorem slotsOf_nil (n : Nat) (sv rv : Nat → Val) :
    slotsOf n sv rv [] = List.replicate n none := by
  simp [slotsOf, List.map_const']

theorem lookupW_heapFields (w : World) (h2 : List (Nat × Option (List (Option (Val × Val)))))
    (n2 : Nat) (t : TyTag) (i : PromiseId) :
    lookupW t i { w with heap := h2, heapNext := n2 } = lookupW t i w := rfl

theorem heapNext_setReg (w : World) (tg : TyTag) (r : Reg) :
    (w.setReg tg r).heapNext = w.heapNext := rfl

theorem heap_setReg (w : World) (tg : TyTag) (r : Reg) :
    (w.setReg tg r).heap = w.heap := rfl

theorem allSibs_ids (n : Nat) :
    ((List.range n).map extSib).map Prom.id = (List.range n).map sibId := by
  simp [List.map_map, extSib, Prom.id, sibId, Function.comp]

/-- Registering one sibling chain of `all` (the body of the registration
loop, lib.rs 660-679) produces `chainWorld`. -/
theorem c4_chain (tag : TyTag) (i : Nat) (w : World) (g : Nat)
    (hn : w.nextLocal = 2 + 2 * i) :
    exec (g + 6)
        (.reg unitTag
          (thenOp unitTag (allMapTag tag)
            (mapOp (allMapTag tag) tag (extSib i) (.tagAllF ⟨0, 1⟩ i 0) w).1
            (.allCont tag)
            (mapOp (allMapTag tag) tag (extSib i) (.tagAllF ⟨0, 1⟩ i 0) w).2).1)
        ((thenOp unitTag (allMapTag tag)
          (mapOp (allMapTag tag) tag (extSib i) (.tagAllF ⟨0, 1⟩ i 0) w).1
          (.allCont tag)
          (mapOp (allMapTag tag) tag (extSib i) (.tagAllF ⟨0, 1⟩ i 0) w).2).2)
      = .ok (chainWorld tag i w) := by
  simp only [mapOp, thenOp, freshPid, extSib, exec, chainWorld, thenNodeAll,
    sibNodeAll, mapNodeAll, mapId, thenId, sibId]
  rw [hn]

/-- One registration loop iteration preserves the setup invariant. -/
theorem c4_setup_step (tag : TyTag) (n : Nat) (sv rv : Nat → Val) (idx : Nat)
    (w : World) (h : C4Setup tag n sv rv idx w) :
    C4Setup tag n sv rv (idx + 1) (chainWorld tag idx w) := by
  obtain ⟨hsib, hmap, hpar, hobs, hheap, htr, hnx⟩ := h
  refine ⟨?_, ?_, ?_, ?_, ?_, ?_, ?_⟩
  · intro i hi
    by_cases hii : i = idx
    · subst hii
      simp only [chainWorld]
      rw [lookupW_traceSet, lookupW_setReg, if_pos rfl, lookup_insertN_self]
    · have hilt : i < idx := by omega
      simp only [chainWorld]
      rw [lookupW_traceSet, lkW_insert_ne _ _ _ _ _ _ (sibId_ne hii),
        lkW_insert_ne _ _ _ _ _ _ (sibId_ne_mapId i idx),
        lkW_insert_ne _ _ _ _ _ _ (fun he => thenId_ne_sibId idx i he.symm),
        lookupW_nextLocal]
      exact hsib i hilt
  · intro i hi
    by_cases hii : i = idx
    · subst hii
      simp only [chainWorld]
      rw [lookupW_traceSet, lkW_insert_ne _ _ _ _ _ _ (mapId_ne_sibId i i),
        lookupW_setReg, if_pos rfl, lookup_insertN_self]
    · have hilt : i < idx := by omega
      have hmm : mapId i ≠ mapId idx := fun he => hii (mapId_inj he)
      simp only [chainWorld]
      rw [lookupW_traceSet, lkW_insert_ne _ _ _ _ _ _ (mapId_ne_sibId i idx),
        lkW_insert_ne _ _ _ _ _ _ hmm,
        lkW_insert_ne _ _ _ _ _ _ (fun he => thenId_ne_mapId idx i he.symm),
        lookupW_nextLocal]
      exact hmap i hilt
  · simp only [chainWorld]
    rw [lookupW_traceSet, lkW_insert_ne _ _ _ _ _ _ (parId_ne_sibId idx),
      lkW_insert_ne _ _ _ _ _ _ (parId_ne_mapId idx),
      lkW_insert_ne _ _ _ _ _ _ (parId_ne_thenId idx),
      lookupW_nextLocal]
    exact hpar
  · simp only [chainWorld]
    rw [lookupW_traceSet, lkW_insert_ne _ _ _ _ _ _ (obsId_ne_sibId idx),
      lkW_insert_ne _ _ _ _ _ _ (obsId_ne_mapId idx),
      lkW_insert_ne _ _ _ _ _ _ (obsId_ne_thenId idx),
      lookupW_nextLocal]
    exact hobs
  · simp only [chainWorld]
    rw [heapGet_traceSet, heapGet_setReg, heapGet_setReg, heapGet_setReg,
      heapGet_nextLocal]
    exact hheap
  · simp only [chainWorld, World.setReg]
    rw [htr]
    exact (setupTrace_succ idx).symm
  · simp only [chainWorld, World.setReg]
    omega

/-- The registration loop of `all` stores every sibling chain. -/
theorem c4_loop (tag : TyTag) (n : Nat) (sv rv : Nat → Val) :
    ∀ k idx e w, idx + k = n → C4Setup tag n sv rv idx w →
      ∃ w', exec (k + 7 + e)
          (.allLoop tag ((List.range' idx k).map extSib) ⟨0, 1⟩ 0 idx) w
        = .ok w' ∧ C4Setup tag n sv rv n w' := by
  intro k
  induction k with
  | zero =>
    intro idx e w hidx hS
    have hin : idx = n := by omega
    subst hin
    refine ⟨w, ?_, hS⟩
    rw [show 0 + 7 + e = (6 + e) + 1 from by omega]
    simp [exec, List.range']
  | succ k ih =>
    intro idx e w hidx hS
    obtain ⟨F, hF⟩ : ∃ F, k + 1 + 7 + e = F + 1 := ⟨k + 7 + e, by omega⟩
    rw [hF, List.range'_succ, List.map_cons]
    simp only [exec]
    have hchain : exec F
        (.reg unitTag
          (thenOp unitTag (allMapTag tag)
            (mapOp (allMapTag tag) tag (extSib idx) (.tagAllF ⟨0, 1⟩ idx 0) w).1
            (.allCont tag)
            (mapOp (allMapTag tag) tag (extSib idx) (.tagAllF ⟨0, 1⟩ idx 0) w).2).1)
        ((thenOp unitTag (allMapTag tag)
          (mapOp (allMapTag tag) tag (extSib idx) (.tagAllF ⟨0, 1⟩ idx 0) w).1
          (.allCont tag)
          (mapOp (allMapTag tag) tag (extSib idx) (.tagAllF ⟨0, 1⟩ idx 0) w).2).2)
        = .ok (chainWorld tag idx w) := by
      rw [show F = (k + e + 1) + 6 from by omega]
      exact c4_chain tag idx w (k + e + 1) hS.next
    rw [hchain]
    simp only [Res.bind]
    have hF2 : F = k + 7 + e := by omega
    rw [hF2]
    exact ih (idx + 1) e (chainWorld tag idx w) (by omega)
      (c4_setup_step tag n sv rv idx w hS)

/-- Setup invariant at idx = n gives the inter-resolution invariant with
nothing resolved yet. -/
theorem c4SetupToInv (tag : TyTag) (n : Nat) (sv rv : Nat → Val) (w : World)
    (h : C4Setup tag n sv rv n w) : C4Inv tag n sv rv [] w := by
  obtain ⟨hsib, hmap, hpar, hobs, hheap, htr, hnx⟩ := h
  refine ⟨?_, ?_, ?_, ?_, hpar, hobs, hheap, htr, ?_⟩
  · intro i hi _
    exact hsib i hi
  · intro i _ hmem
    cases hmem
  · intro i hi _
    exact hmap i hi
  · intro i _ hmem
    cases hmem
  · simpa using hnx

/-- Registering the observed `all` combinator stores the observer, the
parent and every sibling chain, allocates the slot array and leaves the
scenario in the inter-resolution invariant with nothing resolved. -/
theorem c4_setup (tag : TyTag) (n : Nat) (sv rv : Nat → Val) :
    ∃ w', exec (n + 12) (.reg (allParTag tag) (c4obs tag n).1) (c4obs tag n).2
        = .ok w' ∧ C4Inv tag n sv rv [] w' := by
  have hpre : exec (n + 12) (.reg (allParTag tag) (c4obs tag n).1) (c4obs tag n).2
      = exec (n + 8) (.allLoop tag ((List.range n).map extSib) ⟨0, 1⟩ 0 0)
        (c4PreWorld tag n) := rfl
  rw [hpre, List.range_eq_range']
  have hS : C4Setup tag n sv rv 0 (c4PreWorld tag n) := by
    refine ⟨?_, ?_, ?_, ?_, ?_, rfl, rfl⟩
    · intro i hi
      omega
    · intro i hi
      omega
    · simp only [c4PreWorld]
      rw [lookupW_heapFields, lookupW_setReg, if_pos rfl, lookup_insertN_self]
    · simp only [c4PreWorld]
      rw [lookupW_heapFields,
        lkW_insert_ne _ _ _ _ _ _ (by decide : (⟨0, 2⟩ : PromiseId) ≠ ⟨0, 1⟩),
        lookupW_setReg, if_pos rfl, lookup_insertN_self, allSibs_ids]
      rfl
    · simp only [c4PreWorld]
      rw [slotsOf_nil]
      simp [heapGet, getPtr, List.length_map, List.length_range]
  obtain ⟨w', hrun, hS'⟩ := c4_loop tag n sv rv n 0 1 _ (by omega) hS
  exact ⟨w', hrun, c4SetupToInv tag n sv rv w' hS'⟩

theorem slotsOf_length (n : Nat) (sv rv : Nat → Val) (d : List Nat) :
    (slotsOf n sv rv d).length = n := by
  simp [slotsOf]

theorem slotsOf_set (n : Nat) (sv rv : Nat → Val) (done : List Nat) (j : Nat)
    (hj : j < n) :
    (slotsOf n sv rv done).set j (some (sv j, rv j))
      = slotsOf n sv rv (done ++ [j]) := by
  apply List.ext_getElem?
  intro i
  rw [List.getElem?_set]
  by_cases hij : j = i
  · subst hij
    rw [if_pos rfl, if_pos (by rw [slotsOf_length]; exact hj)]
    simp only [slotsOf, List.getElem?_map, List.getElem?_range hj, Option.map_some']
    rw [if_pos (by simp)]
  · rw [if_neg hij]
    simp only [slotsOf, List.getElem?_map]
    by_cases hi : i < n
    · rw [List.getElem?_range hi, Option.map_some', Option.map_some']
      have : (i ∈ done ++ [j]) ↔ i ∈ done := by
        simp
        intro he
        exact absurd he.symm hij
      by_cases hd : i ∈ done
      · rw [if_pos hd, if_pos (this.mpr hd)]
      · rw [if_neg hd, if_neg (fun hc => hd (this.mp hc))]
    · rw [List.getElem?_eq_none (by simp [List.length_range]; omega)]
      rfl

theorem slotsOf_full (n : Nat) (sv rv : Nat → Val) (d : List Nat)
    (h : ∀ i, i < n → i ∈ d) :
    slotsOf n sv rv d = (List.range n).map (fun i => some (sv i, rv i)) := by
  simp only [slotsOf]
  apply List.map_congr_left
  intro i hi
  rw [if_pos (h i (List.mem_range.mp hi))]

theorem slotsOf_all_true (n : Nat) (sv rv : Nat → Val) (d : List Nat)
    (h : ∀ i, i < n → i ∈ d) :
    (slotsOf n sv rv d).all Option.isSome = true := by
  rw [slotsOf_full n sv rv d h, List.all_eq_true]
  intro x hx
  simp only [List.mem_map] at hx
  obtain ⟨i, _, rfl⟩ := hx
  rfl

theorem slotsOf_all_false (n : Nat) (sv rv : Nat → Val) (d : List Nat)
    (hmiss : ∃ i, i < n ∧ i ∉ d) :
    (slotsOf n sv rv d).all Option.isSome = false := by
  obtain ⟨i, hi, hid⟩ := hmiss
  rw [List.all_eq_false]
  refine ⟨none, ?_, by simp⟩
  simp only [slotsOf, List.mem_map]
  exact ⟨i, List.mem_range.mpr hi, by rw [if_neg hid]⟩

theorem slotsOf_full_filterMap (n : Nat) (sv rv : Nat → Val) (d : List Nat)
    (h : ∀ i, i < n → i ∈ d) :
    (slotsOf n sv rv d).filterMap (fun o => o.map fun e => Val.pair e.1 e.2)
      = (List.range n).map fun i => Val.pair (sv i) (rv i) := by
  rw [slotsOf_full n sv rv d h, List.filterMap_map]
  rw [show ((fun o => Option.map (fun e : Val × Val => Val.pair e.1 e.2) o)
      ∘ fun i => some (sv i, rv i))
    = some ∘ (fun i => Val.pair (sv i) (rv i)) from rfl]
  rw [List.filterMap_eq_map]

theorem sibId_ne_zeroThread (i : Nat) (x : Nat) : sibId i ≠ ⟨0, x⟩ := by
  simp [sibId]


theorem allInner_false (fuel : Nat) (tg : TyTag) (ptr idx : Nat)
    (anyId wid : PromiseId) (s r : Val) (u : World)
    (slots : List (Option (Val × Val)))
    (h1 : heapGet u ptr = some slots)
    (h2 : (slots.set idx (some (s, r))).all Option.isSome = false) :
    exec (fuel + 1) (.runC (.allInner tg ptr idx anyId s r) wid) u
      = .ok (heapSet u ptr (slots.set idx (some (s, r)))) := by
  rw [exec]
  try simp only []
  rw [h1]
  simp only [h2, Bool.false_eq_true, if_false]

theorem c4_step_run (tag : TyTag) (n : Nat) (sv rv : Nat → Val) (done : List Nat)
    (j : Nat) (w : World) (fuel : Nat) (hInv : C4Inv tag n sv rv done w)
    (hj : j < n) (hjd : j ∉ done)
    (hmiss : ∃ i, i < n ∧ i ∉ done ++ [j]) :
    exec (fuel + 9) (c4resOp tag sv rv j) w
      = .ok (c4StepWorld tag n sv rv done j w) := by
  have hs := hInv.sib j hj hjd
  have hm := hInv.mapped j hj hjd
  have hh := hInv.heap
  unfold lookupW at hs hm
  simp only [c4resOp]
  rw [exec]
  simp only []
  rw [hs]
  simp only [sibNodeAll]
  rw [exec]
  simp only [PFn.eval]
  rw [exec]
  simp only []
  rw [lk_insert_ne w tag (sibId j) _ (allMapTag tag) (mapId j) (mapId_ne_sibId j j)]
  rw [hm]
  simp only [mapNodeAll]
  rw [exec]
  simp only [evalFn2, freshPid, Option.isSome_none, Bool.false_eq_true, if_false]
  rw [exec]
  try simp only []
  rw [allInner_false _ _ _ _ _ _ _ _ _ (slotsOf n sv rv done) _ _]
  rotate_left
  · exact hh
  · rw [slotsOf_set n sv rv done j hj]
    exact slotsOf_all_false n sv rv (done ++ [j]) hmiss
  rw [slotsOf_set n sv rv done j hj]
  simp only [Res.bind]
  rfl

theorem c4Step_lookup_other (tag : TyTag) (n : Nat) (sv rv : Nat → Val)
    (done : List Nat) (j : Nat) (w : World) (t : TyTag) (k : PromiseId)
    (h1 : k ≠ sibId j) (h2 : k ≠ mapId j) (h3 : k ≠ ⟨0, w.nextLocal + 1⟩) :
    lookupW t k (c4StepWorld tag n sv rv done j w) = lookupW t k w := by
  simp only [c4StepWorld]
  rw [lkW_remove_ne _ _ _ _ _ h1, lkW_remove_ne _ _ _ _ _ h2, lookupW_heapSet,
    lkW_insert_ne _ _ _ _ _ _ h3, lookupW_nextLocal,
    lkW_insert_ne _ _ _ _ _ _ h2, lkW_insert_ne _ _ _ _ _ _ h1]

theorem c4Step_inv (tag : TyTag) (n : Nat) (sv rv : Nat → Val) (done : List Nat)
    (j : Nat) (w : World) (hInv : C4Inv tag n sv rv done w)
    (hj : j < n) (hjd : j ∉ done) :
    C4Inv tag n sv rv (done ++ [j]) (c4StepWorld tag n sv rv done j w) := by
  have hnl : w.nextLocal = 2 + 2 * n + done.length := hInv.next
  have hmapne : ∀ i, i < n → mapId i ≠ (⟨0, w.nextLocal + 1⟩ : PromiseId) := by
    intro i hi he
    rw [hnl] at he
    simp only [mapId] at he
    injection he with he1 he2
    omega
  have hparne : (⟨0, 1⟩ : PromiseId) ≠ (⟨0, w.nextLocal + 1⟩ : PromiseId) := by
    intro he
    rw [hnl] at he
    injection he with he1 he2
    omega
  have hobsne : (⟨0, 2⟩ : PromiseId) ≠ (⟨0, w.nextLocal + 1⟩ : PromiseId) := by
    intro he
    rw [hnl] at he
    injection he with he1 he2
    omega
  refine ⟨?_, ?_, ?_, ?_, ?_, ?_, ?_, ?_, ?_⟩
  · intro i hi hid
    have hij : i ≠ j := fun he => hid (by simp [he])
    have hidone : i ∉ done := fun hx => hid (by simp [hx])
    rw [c4Step_lookup_other tag n sv rv done j w tag (sibId i)
      (sibId_ne hij) (sibId_ne_mapId i j) (sibId_ne_zeroThread i _)]
    exact hInv.sib i hi hidone
  · intro i hi hid
    rcases List.mem_append.mp hid with hdn | hjj
    · have hij : i ≠ j := fun he => hjd (he ▸ hdn)
      rw [c4Step_lookup_other tag n sv rv done j w tag (sibId i)
        (sibId_ne hij) (sibId_ne_mapId i j) (sibId_ne_zeroThread i _)]
      exact hInv.sibGone i hi hdn
    · have hij : i = j := by simpa using hjj
      subst hij
      simp only [c4StepWorld, lookupW]
      rw [getReg_setReg_self, lookup_removeN, if_pos rfl]
  · intro i hi hid
    have hij : i ≠ j := fun he => hid (by simp [he])
    have hidone : i ∉ done := fun hx => hid (by simp [hx])
    rw [c4Step_lookup_other tag n sv rv done j w (allMapTag tag) (mapId i)
      (mapId_ne_sibId i j) (fun he => hij (mapId_inj he)) (hmapne i hi)]
    exact hInv.mapped i hi hidone
  · intro i hi hid
    rcases List.mem_append.mp hid with hdn | hjj
    · have hij : i ≠ j := fun he => hjd (he ▸ hdn)
      rw [c4Step_lookup_other tag n sv rv done j w (allMapTag tag) (mapId i)
        (mapId_ne_sibId i j) (fun he => hij (mapId_inj he)) (hmapne i hi)]
      exact hInv.mappedGone i hi hdn
    · have hij : i = j := by simpa using hjj
      subst hij
      simp only [c4StepWorld, lookupW]
      rw [lk_remove_ne _ _ _ _ _ (mapId_ne_sibId i i)]
      rw [getReg_setReg_self, lookup_removeN, if_pos rfl]
  · rw [c4Step_lookup_other tag n sv rv done j w (allParTag tag) ⟨0, 1⟩
      (parId_ne_sibId j) (parId_ne_mapId j) hparne]
    exact hInv.parA
  · rw [c4Step_lookup_other tag n sv rv done j w (allParTag tag) ⟨0, 2⟩
      (obsId_ne_sibId j) (obsId_ne_mapId j) hobsne]
    exact hInv.obsA
  · simp only [c4StepWorld]
    rw [heapGet_setReg, heapGet_setReg, heapGet_heapSet_self]
  · exact hInv.trace
  · have h : (c4StepWorld tag n sv rv done j w).nextLocal = w.nextLocal + 1 := rfl
    rw [h, hnl, List.length_append]
    simp
    omega

theorem nextLocal_setReg (w : World) (tg : TyTag) (r : Reg) :
    (w.setReg tg r).nextLocal = w.nextLocal := rfl

theorem getReg_traceSet (w : World) (tr : List Ev) (t : TyTag) :
    World.getReg { w with trace := tr } t = w.getReg t := rfl

theorem getReg_nextLocalSet (w : World) (c : Nat) (t : TyTag) :
    World.getReg { w with nextLocal := c } t = w.getReg t := rfl

theorem getReg_heapSet (w : World) (p : Nat) (s : List (Option (Val × Val)))
    (t : TyTag) : (heapSet w p s).getReg t = w.getReg t := rfl

theorem getReg_heapFree (w : World) (p : Nat) (t : TyTag) :
    (heapFree w p).getReg t = w.getReg t := rfl

theorem resolve_parent_obs (fuel : Nat) (tag : TyTag) (n : Nat) (s r : Val)
    (u : World)
    (hpar : Reg.lookup ⟨0, 1⟩ (u.getReg (allParTag tag)) = some (parANode tag))
    (hobs : Reg.lookup ⟨0, 2⟩ (u.getReg (allParTag tag)) = some (obsANode tag n)) :
    exec (fuel + 3) (.res (allParTag tag) ⟨0, 1⟩ s r) u
      = .ok (parentFired tag n s r u) := by
  rw [exec]
  try simp only []
  rw [hpar]
  simp only [parANode]
  rw [exec]
  try simp only []
  simp only [evalFn2]
  rw [exec]
  try simp only []
  rw [getReg_traceSet, getReg_setReg_self,
    lookup_insertN_ne _ _ _ _ (by decide : (⟨0, 2⟩ : PromiseId) ≠ ⟨0, 1⟩), hobs]
  simp only [obsANode]
  simp only [Res.bind]
  simp only [parentFired, getReg_traceSet, getReg_setReg_self]

theorem allInner_true (fuel : Nat) (tg : TyTag) (ptr idx : Nat)
    (anyId wid : PromiseId) (s r : Val) (u : World)
    (slots : List (Option (Val × Val)))
    (h1 : heapGet u ptr = some slots)
    (h2 : (slots.set idx (some (s, r))).all Option.isSome = true) :
    exec (fuel + 1 + 1) (.runC (.allInner tg ptr idx anyId s r) wid) u
      = exec (fuel + 1) (.res (allParTag tg) anyId .unit
          (.vlist ((slots.set idx (some (s, r))).filterMap
            (fun o => o.map fun e => Val.pair e.1 e.2))))
          (heapFree (heapSet u ptr (slots.set idx (some (s, r)))) ptr) := by
  conv_lhs => rw [exec]
  rw [h1]
  simp only []
  rw [if_pos h2]

theorem c4_final_run (tag : TyTag) (n : Nat) (sv rv : Nat → Val) (done : List Nat)
    (j : Nat) (w : World) (fuel : Nat) (hInv : C4Inv tag n sv rv done w)
    (hj : j < n) (hjd : j ∉ done)
    (hfull : ∀ i, i < n → i ∈ done ++ [j]) :
    ∃ v : World, exec (fuel + 9) (c4resOp tag sv rv j) w = .ok v
      ∧ v.trace = .rcb 99 .unit
          (.vlist ((List.range n).map fun i => Val.pair (sv i) (rv i)))
        :: w.trace := by
  have hs := hInv.sib j hj hjd
  have hm := hInv.mapped j hj hjd
  have hh := hInv.heap
  have hpar1 : (⟨0, 1⟩ : PromiseId) ≠ ⟨0, w.nextLocal + 1⟩ := by
    intro he
    rw [hInv.next] at he
    injection he with he1 he2
    omega
  have hobs1 : (⟨0, 2⟩ : PromiseId) ≠ ⟨0, w.nextLocal + 1⟩ := by
    intro he
    rw [hInv.next] at he
    injection he with he1 he2
    omega
  unfold lookupW at hs hm
  simp only [c4resOp]
  rw [exec]
  simp only []
  rw [hs]
  simp only [sibNodeAll]
  rw [exec]
  simp only [PFn.eval]
  rw [exec]
  simp only []
  rw [lk_insert_ne w tag (sibId j) _ (allMapTag tag) (mapId j) (mapId_ne_sibId j j)]
  rw [hm]
  simp only [mapNodeAll]
  rw [exec]
  simp only [evalFn2, freshPid, nextLocal_setReg, Option.isSome_none,
    Bool.false_eq_true, if_false]
  rw [exec]
  try simp only []
  rw [allInner_true _ _ _ _ _ _ _ _ _ (slotsOf n sv rv done) _ _]
  rotate_left
  · exact hh
  · rw [slotsOf_set n sv rv done j hj]
    exact slotsOf_all_true n sv rv (done ++ [j]) hfull
  rw [slotsOf_set n sv rv done j hj]
  rw [slotsOf_full_filterMap n sv rv (done ++ [j]) hfull]
  rw [show fuel + 2 + 1 = fuel + 3 from by omega]
  rw [resolve_parent_obs _ _ n _ _ _ _ _]
  rotate_left
  · rw [getReg_heapFree, getReg_heapSet]
    rw [lk_insert_ne _ _ _ _ _ _ hpar1]
    rw [getReg_nextLocalSet]
    rw [lk_insert_ne _ _ _ _ _ _ (parId_ne_mapId j)]
    rw [lk_insert_ne _ _ _ _ _ _ (parId_ne_sibId j)]
    exact hInv.parA
  · rw [getReg_heapFree, getReg_heapSet]
    rw [lk_insert_ne _ _ _ _ _ _ hobs1]
    rw [getReg_nextLocalSet]
    rw [lk_insert_ne _ _ _ _ _ _ (obsId_ne_mapId j)]
    rw [lk_insert_ne _ _ _ _ _ _ (obsId_ne_sibId j)]
    exact hInv.obsA
  simp only [Res.bind]
  refine ⟨_, rfl, ?_⟩
  rfl

theorem c4_drive (tag : TyTag) (n : Nat) (sv rv : Nat → Val) (fuel : Nat) :
    ∀ (rest done : List Nat) (w : World),
      C4Inv tag n sv rv done w →
      (done ++ rest).Perm (List.range n) →
      rest ≠ [] →
      ∃ v, runOps (fuel + 9) (rest.map (c4resOp tag sv rv)) w = .ok v
        ∧ v.trace = .rcb 99 .unit
            (.vlist ((List.range n).map fun i => Val.pair (sv i) (rv i)))
          :: setupTrace n := by
  intro rest
  induction rest with
  | nil =>
    intro done w _ _ hne
    exact absurd rfl hne
  | cons j rest ih =>
    intro done w hInv hperm _
    have hnd : (done ++ j :: rest).Nodup := hperm.symm.nodup (List.nodup_range n)
    have hmem : ∀ x, x ∈ done ++ j :: rest ↔ x ∈ List.range n :=
      fun x => hperm.mem_iff
    have hj : j < n := List.mem_range.mp ((hmem j).mp (by simp))
    have hjd : j ∉ done := fun hd =>
      (List.nodup_append.mp hnd).2.2 hd (by simp)
    cases rest with
    | nil =>
      have hfull : ∀ i, i < n → i ∈ done ++ [j] := fun i hi =>
        (hmem i).mpr (List.mem_range.mpr hi)
      obtain ⟨v, hv, hvt⟩ := c4_final_run tag n sv rv done j w fuel hInv hj hjd hfull
      refine ⟨v, ?_, ?_⟩
      · simp only [List.map_cons, List.map_nil, runOps]
        rw [hv]
        simp only [Res.bind]
      · rw [hvt, hInv.trace]
    | cons k rest2 =>
      have hmiss : ∃ i, i < n ∧ i ∉ done ++ [j] := by
        refine ⟨k, List.mem_range.mp ((hmem k).mp (by simp)), ?_⟩
        intro hk
        rcases List.mem_append.mp hk with h1 | h2
        · exact (List.nodup_append.mp hnd).2.2 h1 (by simp)
        · have hkj : k = j := by simpa using h2
          have hc : (j :: k :: rest2).Nodup := (List.nodup_append.mp hnd).2.1
          exact (List.nodup_cons.mp hc).1 (by simp [hkj])
      have hstep := c4_step_run tag n sv rv done j w fuel hInv hj hjd hmiss
      have hinv2 := c4Step_inv tag n sv rv done j w hInv hj hjd
      have hperm2 : ((done ++ [j]) ++ k :: rest2).Perm (List.range n) := by
        simpa using hperm
      obtain ⟨v, hv, hvt⟩ := ih (done ++ [j]) (c4StepWorld tag n sv rv done j w)
        hinv2 hperm2 (by simp)
      refine ⟨v, ?_, hvt⟩
      simp only [List.map_cons, runOps]
      rw [hstep]
      simp only [Res.bind]
      simpa using hv

/-- C4: for every non-empty ordered collection of n sibling promises that
are each eventually resolved exactly once, in any completion order, the
promise produced by the all combinator resolves exactly once, with the
collection of all n (state, result) pairs arranged in the siblings'
original index order rather than completion order (lib.rs 650-688). -/
theorem c4_all_resolves_once_in_index_order (tag : TyTag) (n : Nat)
    (sv rv : Nat → Val) (order : List Nat) (hn : 0 < n)
    (hord : order.Perm (List.range n)) :
    ∃ v, c4run tag n sv rv order (n + 12) = .ok v
      ∧ v.trace = .rcb 99 .unit
          (.vlist ((List.range n).map fun i => Val.pair (sv i) (rv i)))
        :: setupTrace n := by
  obtain ⟨w1, hw1, hInv⟩ := c4_setup tag n sv rv
  have hne : order ≠ [] := by
    intro he
    rw [he] at hord
    have hl := hord.length_eq
    simp at hl
    omega
  obtain ⟨v, hv, hvt⟩ := c4_drive tag n sv rv (n + 3) order [] w1 hInv
    (by simpa using hord) hne
  refine ⟨v, ?_, hvt⟩
  simp only [c4run, runOps]
  rw [hw1]
  simp only [Res.bind]
  rw [show n + 12 = n + 3 + 9 from by omega]
  exact hv

theorem c4_all_resolves_once_in_index_order_witness :
    0 < 3 ∧ ([2, 0, 1] : List Nat).Perm (List.range 3) ∧
    ∃ v, c4run natNatTag 3 (fun i => .nat (100 + i)) (fun i => .nat (200 + i))
          [2, 0, 1] (3 + 12) = .ok v
      ∧ v.trace = .rcb 99 .unit
          (.vlist ((List.range 3).map fun i =>
            Val.pair (.nat (100 + i)) (.nat (200 + i))))
        :: setupTrace 3 :=
  ⟨by decide, by decide,
    c4_all_resolves_once_in_index_order natNatTag 3
      (fun i => .nat (100 + i)) (fun i => .nat (200 + i)) [2, 0, 1]
      (by decide) (by decide)⟩

end Pecs
